import Mathlib

/-!
Shallow embedding of the snakecheck generation-tracing and dataflow-aware
shrinking engine (`src/snakecheck/trace.py`, `src/snakecheck/shrinking.py`).

Modelling conventions:
* Python values that flow through the tracer/shrinker are modelled by `Val`
  (unbounded `int` as `Int`, `str` as `List Char`, `list` as nested `Val`s,
  and an opaque constructor for every other runtime type, which the shrinker
  treats as unshrinkable).
* Python dicts are modelled as association lists with insertion-order update
  semantics (updating an existing key keeps its position, a new key is
  appended), matching CPython dict iteration order.
* Python sets of ids are modelled as duplicate-free lists in first-insertion
  order.  CPython string-set iteration order is unspecified; every theorem
  below that depends on a set's contents is order-independent, and the one
  refutation that exercises an iteration order states this explicitly.
* `Strategy` objects are opaque descriptors: the shrinker never calls
  `generate()` and compares nothing but ids and values, so only an identity
  tag is modelled.  Random generation (`strategy.generate()`) is modelled by
  passing the produced value as an explicit argument ("oracle") to the draw
  function.
* The predicate handed to the shrinker may raise: it is modelled as a total
  function into `Except ε Bool`, where `Except.error` stands for "raised an
  exception of any kind" and `Except.ok b` for "returned the boolean b".
-/

/-- Model of the Python runtime values handled by the shrinker. -/
inductive Val where
  | int (n : Int)
  | str (s : List Char)
  | vlist (l : List Val)
  | other (tag : Nat)

mutual

/-- Decidable structural equality on `Val`, modelling Python `==` on the
value kinds the shrinker distinguishes. -/
def Val.decEq : (a b : Val) → Decidable (a = b)
  | .int a, .int b =>
      if h : a = b then .isTrue (h ▸ rfl)
      else .isFalse (fun hc => h (Val.int.inj hc))
  | .str a, .str b =>
      if h : a = b then .isTrue (h ▸ rfl)
      else .isFalse (fun hc => h (Val.str.inj hc))
  | .other a, .other b =>
      if h : a = b then .isTrue (h ▸ rfl)
      else .isFalse (fun hc => h (Val.other.inj hc))
  | .vlist l1, .vlist l2 =>
      match Val.decEqList l1 l2 with
      | .isTrue h => .isTrue (by rw [h])
      | .isFalse h => .isFalse (fun hc => h (Val.vlist.inj hc))
  | .int _, .str _ => .isFalse (fun hc => Val.noConfusion hc)
  | .int _, .vlist _ => .isFalse (fun hc => Val.noConfusion hc)
  | .int _, .other _ => .isFalse (fun hc => Val.noConfusion hc)
  | .str _, .int _ => .isFalse (fun hc => Val.noConfusion hc)
  | .str _, .vlist _ => .isFalse (fun hc => Val.noConfusion hc)
  | .str _, .other _ => .isFalse (fun hc => Val.noConfusion hc)
  | .vlist _, .int _ => .isFalse (fun hc => Val.noConfusion hc)
  | .vlist _, .str _ => .isFalse (fun hc => Val.noConfusion hc)
  | .vlist _, .other _ => .isFalse (fun hc => Val.noConfusion hc)
  | .other _, .int _ => .isFalse (fun hc => Val.noConfusion hc)
  | .other _, .str _ => .isFalse (fun hc => Val.noConfusion hc)
  | .other _, .vlist _ => .isFalse (fun hc => Val.noConfusion hc)
termination_by structural a => a

/-- Decidable equality of lists of `Val`s (mutual with `Val.decEq`). -/
def Val.decEqList : (l1 l2 : List Val) → Decidable (l1 = l2)
  | [], [] => .isTrue rfl
  | [], _ :: _ => .isFalse (fun hc => List.noConfusion hc)
  | _ :: _, [] => .isFalse (fun hc => List.noConfusion hc)
  | x :: xs, y :: ys =>
      match Val.decEq x y, Val.decEqList xs ys with
      | .isTrue h1, .isTrue h2 => .isTrue (by rw [h1, h2])
      | .isFalse h1, _ => .isFalse (fun hc => h1 (List.head_eq_of_cons_eq hc))
      | _, .isFalse h2 => .isFalse (fun hc => h2 (List.tail_eq_of_cons_eq hc))
termination_by structural a => a

end

instance : DecidableEq Val := Val.decEq

/-- Opaque generator descriptor (`Strategy` in `generators.py`): the
shrinking engine never invokes `generate` and never inspects a strategy. -/
structure Strategy where
  tag : Nat
deriving DecidableEq

/-- `TraceEntry` from `trace.py` (the always-empty `metadata` dict is kept
as an association list for faithfulness). -/
structure TraceEntry where
  id : String
  strategy : Strategy
  value : Val
  dependencies : List String := []
  metadata : List (String × Val) := []
deriving DecidableEq

/-- `GenerationTrace` from `trace.py`; `nextId` models `_next_id`. -/
structure GenerationTrace where
  entries : List TraceEntry := []
  variable_assignments : List (String × String) := []
  nextId : Nat := 0
deriving DecidableEq

/-- Python set insertion: add an element unless already present. -/
def setAdd (l : List String) (x : String) : List String :=
  if x ∈ l then l else l ++ [x]

/-- `set(xs)` for a list of ids: duplicate-free, first-occurrence order. -/
def pySet (xs : List String) : List String :=
  xs.foldl setAdd []

/-- Python dict update `d[k] = v`: existing keys keep their position. -/
def dictInsert {α : Type} (d : List (String × α)) (k : String) (v : α) :
    List (String × α) :=
  if d.any (fun p => p.1 = k) then
    d.map (fun p => if p.1 = k then (k, v) else p)
  else d ++ [(k, v)]

/-- Python dict lookup `d.get(k)`. -/
def dictGet? {α : Type} (d : List (String × α)) (k : String) : Option α :=
  (d.find? (fun p => p.1 = k)).map (fun p => p.2)

/-- Python dict lookup with default, `d.get(k, default)`. -/
def dictGetD {α : Type} (d : List (String × α)) (k : String) (dflt : α) : α :=
  (dictGet? d k).getD dflt

/-- Decimal digits (most significant first) with explicit fuel, so that the
definition is structurally recursive and evaluates inside `decide`. -/
def natDigitsAux : Nat → Nat → List Char
  | 0, _ => []
  | fuel + 1, n =>
      if n < 10 then [Char.ofNat (48 + n)]
      else natDigitsAux fuel (n / 10) ++ [Char.ofNat (48 + n % 10)]

/-- Decimal digits of a natural number, most significant first
(mirrors the decimal rendering used by Python's f-string). -/
def natDigits (n : Nat) : List Char :=
  natDigitsAux (n + 1) n

/-- The id string `f"t{n}"` produced by `GenerationTrace.add_entry`. -/
def idOf (n : Nat) : String :=
  "t" ++ String.mk (natDigits n)

/-- Decode a decimal digit string back to the number (left inverse of
`natDigits`, used to prove that the generated ids are pairwise distinct). -/
def decodeDigits (cs : List Char) : Nat :=
  cs.foldl (fun a c => a * 10 + (c.toNat - 48)) 0

/-- `GenerationTrace.add_entry`: appends an entry with a fresh id and
returns the id together with the updated trace. -/
def GenerationTrace.addEntry (tr : GenerationTrace) (strategy : Strategy)
    (value : Val) (dependencies : List String := []) :
    String × GenerationTrace :=
  let traceId := idOf tr.nextId
  (traceId,
    { tr with
      entries := tr.entries ++
        [{ id := traceId, strategy := strategy, value := value,
           dependencies := dependencies }]
      nextId := tr.nextId + 1 })

/-- `GenerationTrace.assign_variable`. -/
def GenerationTrace.assignVariable (tr : GenerationTrace) (varName : String)
    (traceId : String) : GenerationTrace :=
  { tr with
    variable_assignments := dictInsert tr.variable_assignments varName traceId }

/-- `GenerationTrace.get_dependency_graph`: id → `set(entry.dependencies)`,
later entries with a duplicate id overwrite earlier ones, as in the Python
loop. -/
def GenerationTrace.getDependencyGraph (tr : GenerationTrace) :
    List (String × List String) :=
  tr.entries.foldl (fun g e => dictInsert g e.id (pySet e.dependencies)) []

/-- `GenerationTrace.get_reverse_dependencies`: id → set of ids of entries
that list it among their dependencies. -/
def GenerationTrace.getReverseDependencies (tr : GenerationTrace) :
    List (String × List String) :=
  tr.entries.foldl
    (fun rev e =>
      e.dependencies.foldl
        (fun acc depId => dictInsert acc depId (setAdd (dictGetD acc depId []) e.id))
        rev)
    []

/-- First entry of the trace carrying the given id
(`next((e for e in self.entries if e.id == node_id), None)`). -/
def GenerationTrace.findEntry? (tr : GenerationTrace) (nodeId : String) :
    Option TraceEntry :=
  tr.entries.find? (fun e => e.id = nodeId)

/-- All id strings mentioned anywhere in a trace (as entry ids or inside a
dependency list); an upper bound for the node set of every graph traversal,
used to size the traversal fuel. -/
def GenerationTrace.allNodeIds (tr : GenerationTrace) : List String :=
  pySet (tr.entries.map (fun e => e.id) ++ tr.entries.flatMap (fun e => e.dependencies))

/-- Fuel that strictly dominates the number of distinct graph nodes, so the
fuelled traversals below never cut a run short (each nested recursive call
marks a previously unvisited node). -/
def GenerationTrace.fuelBound (tr : GenerationTrace) : Nat :=
  tr.allNodeIds.length + 1

/-- The recursive `collect_deps` closure inside
`GenerationTrace.get_variable_dependencies`: the accumulator doubles as the
visited set, the node is added before its entry is looked up, and the
dependencies of a found entry are visited in list order. -/
def GenerationTrace.collectDeps (tr : GenerationTrace) :
    Nat → String → List String → List String
  | 0, _, acc => acc
  | fuel + 1, nodeId, acc =>
      if nodeId ∈ acc then acc
      else
        let acc := acc ++ [nodeId]
        match tr.findEntry? nodeId with
        | none => acc
        | some e =>
            e.dependencies.foldl (fun a d => tr.collectDeps fuel d a) acc

/-- `GenerationTrace.get_variable_dependencies`. -/
def GenerationTrace.getVariableDependencies (tr : GenerationTrace)
    (varName : String) : List String :=
  match dictGet? tr.variable_assignments varName with
  | none => []
  | some traceId => tr.collectDeps tr.fuelBound traceId []

/-- The recursive `collect_dependents` closure inside
`GenerationTrace.get_dependent_variables`.  Note the source recurses into a
dependent id only from inside the `if tid == dep_id` branch, i.e. only
through ids that carry a variable binding, and it keeps no visited set. -/
def GenerationTrace.collectDependents (tr : GenerationTrace)
    (revDeps : List (String × List String)) :
    Nat → String → List String → List String
  | 0, _, acc => acc
  | fuel + 1, nodeId, acc =>
      (dictGetD revDeps nodeId []).foldl
        (fun a depId =>
          tr.variable_assignments.foldl
            (fun a p =>
              if p.2 = depId then
                tr.collectDependents revDeps fuel depId (setAdd a p.1)
              else a)
            a)
        acc

/-- `GenerationTrace.get_dependent_variables`. -/
def GenerationTrace.getDependentVariables (tr : GenerationTrace)
    (varName : String) : List String :=
  match dictGet? tr.variable_assignments varName with
  | none => []
  | some traceId =>
      tr.collectDependents tr.getReverseDependencies tr.fuelBound traceId []

/-- The recursive `dfs` closure inside
`GenerationTrace.get_connected_components`: marks the node in both the
visited set and the current component, then walks the found entry's
dependencies followed by its reverse dependencies. -/
def GenerationTrace.dfsComponent (tr : GenerationTrace) :
    Nat → String → List String × List String → List String × List String
  | 0, _, vc => vc
  | fuel + 1, nodeId, (visited, component) =>
      if nodeId ∈ visited then (visited, component)
      else
        let visited := visited ++ [nodeId]
        let component := component ++ [nodeId]
        match tr.findEntry? nodeId with
        | none => (visited, component)
        | some e =>
            let vc := e.dependencies.foldl
              (fun vc d => tr.dfsComponent fuel d vc) (visited, component)
            (dictGetD tr.getReverseDependencies nodeId []).foldl
              (fun vc r => tr.dfsComponent fuel r vc) vc

/-- `GenerationTrace.get_connected_components`. -/
def GenerationTrace.getConnectedComponents (tr : GenerationTrace) :
    List (List String) :=
  (tr.entries.foldl
    (fun (acc : List String × List (List String)) e =>
      if e.id ∈ acc.1 then acc
      else
        let vc := tr.dfsComponent tr.fuelBound e.id (acc.1, [])
        (vc.1, acc.2 ++ [vc.2]))
    ([], [])).2

/-- Stable insertion into a list sorted by a `Nat` key: the new element goes
after every element whose key is ≤ its own. -/
def stableInsert {α : Type} (key : α → Nat) (x : α) : List α → List α
  | [] => [x]
  | y :: ys =>
      if key y ≤ key x then y :: stableInsert key x ys else x :: y :: ys

/-- Stable sort by a `Nat` key; extensionally the unique stable sort, hence
a faithful model of Python's `sorted(entries, key=...)`. -/
def stableSortByKey {α : Type} (key : α → Nat) (l : List α) : List α :=
  l.foldl (fun acc x => stableInsert key x acc) []

/-- State of a `TraceableDrawFn` (`trace.py`): the owned trace plus the
cumulative dependency accumulator and its scope stack. -/
structure DrawState where
  trace : GenerationTrace := {}
  currentDependencies : List String := []
  dependencyStack : List (List String) := []
deriving DecidableEq

/-- `create_traceable_draw()`: a fresh draw function over an empty trace. -/
def createTraceableDraw : DrawState := {}

/-- `TraceableDrawFn.__call__`.  `strategy.generate()` is random, so the
value it produced is passed in as the `genValue` oracle argument; the entry
records a copy of the current cumulative dependencies and the fresh id is
appended to them. -/
def TraceableDrawFn.call (st : DrawState) (strategy : Strategy)
    (genValue : Val) : Val × DrawState :=
  let (traceId, trace) :=
    st.trace.addEntry strategy genValue st.currentDependencies
  (genValue,
    { st with
      trace := trace
      currentDependencies := st.currentDependencies ++ [traceId] })

/-- `TraceableDrawFn.push_dependencies`. -/
def TraceableDrawFn.pushDependencies (st : DrawState) : DrawState :=
  { st with dependencyStack := st.dependencyStack ++ [st.currentDependencies] }

/-- `TraceableDrawFn.pop_dependencies`. -/
def TraceableDrawFn.popDependencies (st : DrawState) : DrawState :=
  match st.dependencyStack.getLast? with
  | none => st
  | some deps =>
      { st with
        currentDependencies := deps
        dependencyStack := st.dependencyStack.dropLast }

/-- `TraceableDrawFn.record_assignment`: scan the trace's entries newest
first and bind the name to the first entry whose stored value compares
equal; if none matches, do nothing. -/
def TraceableDrawFn.recordAssignment (st : DrawState) (varName : String)
    (value : Val) : DrawState :=
  match st.trace.entries.reverse.find? (fun e => e.value = value) with
  | some e => { st with trace := st.trace.assignVariable varName e.id }
  | none => st

/-- Run a sequence of plain draws (each item: the strategy drawn from and
the value its `generate()` returned) through a fresh `TraceableDrawFn`. -/
def runDraws (script : List (Strategy × Val)) : DrawState :=
  script.foldl (fun st sv => (TraceableDrawFn.call st sv.1 sv.2).2)
    createTraceableDraw

/-! ### Shrinking (`shrinking.py`)

Python object mutation is modelled with an explicit heap: a list of trace
values addressed by index.  `deepcopy` allocates a fresh cell holding a copy
of the source cell's value, and the subsequent in-place mutations of the
copy are `List.set` updates of that fresh cell, so the embedding records
which cell each mutation targets.  A predicate is a total function from the
reconstructed value to `Except ε Bool`: `Except.error` models "raised an
exception" (of any kind), `Except.ok b` models "returned the boolean b". -/

/-- Heap of trace objects; a trace reference is an index. -/
abbrev Heap : Type := List GenerationTrace

/-- Dereference a trace ref (total; the shrinker only uses live refs). -/
def heapGet (h : Heap) (r : Nat) : GenerationTrace :=
  (h[r]?).getD {}

/-- Length of the underlying cell list. -/
def heapLen (h : Heap) : Nat := List.length h

/-- `DataflowAwareShrinker._reconstruct_value`: the id → value dict. -/
def reconstructValue (tr : GenerationTrace) : List (String × Val) :=
  tr.entries.foldl (fun d e => dictInsert d e.id e.value) []

/-- `DataflowAwareShrinker._test_trace`: run the predicate on the
reconstructed value; an exception of any kind means "still failing". -/
def testTrace {ε : Type} (tr : GenerationTrace)
    (pred : List (String × Val) → Except ε Bool) : Bool :=
  match pred (reconstructValue tr) with
  | .error _ => true
  | .ok _ => false

/-- `DataflowAwareShrinker._try_shrink_int` (Python `//` is floor
division, `Int.fdiv`). -/
def tryShrinkInt (value : Int) : Int :=
  if value > 0 then
    let shrunk := max 0 (Int.fdiv value 2)
    if shrunk ≠ value then shrunk else value
  else if value < 0 then
    let shrunk := Int.fdiv value 2
    if shrunk ≠ value then shrunk else value
  else value

/-- `DataflowAwareShrinker._try_shrink_str`. -/
def tryShrinkStr (value : List Char) : List Char :=
  if value.length > 1 then
    let shrunk := value.take (value.length / 2)
    if shrunk ≠ value then shrunk else value
  else value

/-- `DataflowAwareShrinker._try_shrink_list`. -/
def tryShrinkList (value : List Val) : List Val :=
  if value.length > 1 then
    let shrunk := value.take (value.length / 2)
    if shrunk ≠ value then shrunk else value
  else value

/-- `DataflowAwareShrinker._try_shrink_value`: dispatch on the runtime kind
of the value; anything that is not an int, str or list is returned
unchanged (the strategy argument is never inspected). -/
def tryShrinkValue (value : Val) (_strategy : Strategy) : Val :=
  match value with
  | .int n => .int (tryShrinkInt n)
  | .str s => .str (tryShrinkStr s)
  | .vlist l => .vlist (tryShrinkList l)
  | .other _ => value

/-- The recursive `get_depth` closure inside
`DataflowAwareShrinker._sort_by_dependency_depth`.  The visited set is
shared across the whole computation (Python passes the same mutable set to
every recursive call), so an id reached a second time contributes depth 0;
dependencies are folded in the iteration order of the modelled set. -/
def getDepthAux (graph : List (String × List String)) :
    Nat → String → List String → Nat × List String
  | 0, _, visited => (0, visited)
  | fuel + 1, entryId, visited =>
      if entryId ∈ visited then (0, visited)
      else
        let visited := visited ++ [entryId]
        let deps := dictGetD graph entryId []
        if deps.isEmpty then (0, visited)
        else
          let mv := deps.foldl
            (fun (mv : Nat × List String) d =>
              let dv := getDepthAux graph fuel d mv.2
              (max mv.1 dv.1, dv.2))
            (0, visited)
          (mv.1 + 1, mv.2)

/-- `DataflowAwareShrinker._sort_by_dependency_depth`: stable sort of the
entries by `get_depth(e.id)`, each key computed with a fresh visited set
over the shrinker's dependency graph. -/
def sortByDependencyDepth (graph : List (String × List String)) (fuel : Nat)
    (entries : List TraceEntry) : List TraceEntry :=
  stableSortByKey (fun e => (getDepthAux graph fuel e.id []).1) entries

/-- First step of `DataflowAwareShrinker._create_modified_trace`'s update
loop: set the value of the first entry carrying the given id (the loop
breaks after the first match). -/
def setFirstValue : List TraceEntry → String → Val → List TraceEntry
  | [], _, _ => []
  | e :: es, entryId, v =>
      if e.id = entryId then { e with value := v } :: es
      else e :: setFirstValue es entryId v

/-- `DataflowAwareShrinker._create_modified_trace`: deepcopy the trace at
`r` into a fresh heap cell, then mutate that fresh cell's copy in place. -/
def createModifiedTrace (h : Heap) (r : Nat) (entryId : String)
    (newValue : Val) : Heap × Nat :=
  let t := heapGet h r
  let newRef := heapLen h
  let h2 : Heap := List.append h [t]
  let h3 : Heap :=
    List.set h2 newRef { t with entries := setFirstValue t.entries entryId newValue }
  (h3, newRef)

/-- `DataflowAwareShrinker._remove_entry`: deepcopy the trace at `r` into a
fresh heap cell, then on that copy drop the entry, drop the assignments
referencing it, and strip its id from every remaining dependency list (the
three successive in-place mutations are combined into one cell update). -/
def removeEntry (h : Heap) (r : Nat) (entryId : String) : Heap × Nat :=
  let t := heapGet h r
  let newRef := heapLen h
  let h2 : Heap := List.append h [t]
  let keptEntries := t.entries.filter (fun e => e.id ≠ entryId)
  let keptAssignments := t.variable_assignments.filter (fun p => p.2 ≠ entryId)
  let newEntries := keptEntries.map
    (fun e => { e with dependencies := e.dependencies.filter (fun d => d ≠ entryId) })
  let h3 : Heap :=
    List.set h2 newRef
      { t with entries := newEntries, variable_assignments := keptAssignments }
  (h3, newRef)

/-- The entry loop of `DataflowAwareShrinker._shrink_individual_values`:
first accepted candidate wins; rejected candidates leave their allocated
copy behind but are otherwise skipped. -/
def shrinkIndivLoop {ε : Type} (pred : List (String × Val) → Except ε Bool)
    (r : Nat) : Heap → List TraceEntry → Heap × Option Nat
  | h, [] => (h, none)
  | h, e :: rest =>
      let shrunkValue := tryShrinkValue e.value e.strategy
      if shrunkValue ≠ e.value then
        let hn := createModifiedTrace h r e.id shrunkValue
        if testTrace (heapGet hn.1 hn.2) pred then (hn.1, some hn.2)
        else shrinkIndivLoop pred r hn.1 rest
      else shrinkIndivLoop pred r h rest

/-- `DataflowAwareShrinker._shrink_individual_values` (Phase A); returns
the accepted trace's ref, or `none` for "no change". -/
def shrinkIndividualValues {ε : Type} (graph : List (String × List String))
    (fuel : Nat) (h : Heap) (r : Nat)
    (pred : List (String × Val) → Except ε Bool) : Heap × Option Nat :=
  shrinkIndivLoop pred r h
    (sortByDependencyDepth graph fuel (heapGet h r).entries)

/-- The root loop of `DataflowAwareShrinker._shrink_component`.  A root id
with no matching entry would raise `StopIteration` in the source; it cannot
occur for components computed from the same trace and is modelled as a
skip. -/
def shrinkComponentLoop {ε : Type} (pred : List (String × Val) → Except ε Bool)
    (r : Nat) (tr : GenerationTrace) :
    Heap → List String → Heap × Option Nat
  | h, [] => (h, none)
  | h, rootId :: rest =>
      match tr.findEntry? rootId with
      | none => shrinkComponentLoop pred r tr h rest
      | some e =>
          let shrunkValue := tryShrinkValue e.value e.strategy
          if shrunkValue ≠ e.value then
            let hn := createModifiedTrace h r rootId shrunkValue
            if testTrace (heapGet hn.1 hn.2) pred then (hn.1, some hn.2)
            else shrinkComponentLoop pred r tr hn.1 rest
          else shrinkComponentLoop pred r tr h rest

/-- `DataflowAwareShrinker._shrink_component`: roots are the component
members with an empty entry in the shrinker's dependency graph. -/
def shrinkComponent {ε : Type} (graph : List (String × List String))
    (h : Heap) (r : Nat) (component : List String)
    (pred : List (String × Val) → Except ε Bool) : Heap × Option Nat :=
  let rootIds := component.filter (fun tid => dictGetD graph tid [] = [])
  if rootIds.isEmpty then (h, none)
  else shrinkComponentLoop pred r (heapGet h r) h rootIds

/-- The component loop of `DataflowAwareShrinker._shrink_dependency_chains`:
only components with more than one member are tried, first acceptance
wins. -/
def shrinkChainsLoop {ε : Type} (graph : List (String × List String))
    (pred : List (String × Val) → Except ε Bool) (r : Nat) :
    Heap → List (List String) → Heap × Option Nat
  | h, [] => (h, none)
  | h, comp :: rest =>
      if comp.length > 1 then
        let hn := shrinkComponent graph h r comp pred
        match hn.2 with
        | some nr => (hn.1, some nr)
        | none => shrinkChainsLoop graph pred r hn.1 rest
      else shrinkChainsLoop graph pred r h rest

/-- `DataflowAwareShrinker._shrink_dependency_chains` (Phase B). -/
def shrinkDependencyChains {ε : Type} (graph : List (String × List String))
    (h : Heap) (r : Nat) (pred : List (String × Val) → Except ε Bool) :
    Heap × Option Nat :=
  shrinkChainsLoop graph pred r h (heapGet h r).getConnectedComponents

/-- The entry loop of
`DataflowAwareShrinker._shrink_optional_dependencies`: an entry with more
than one reverse dependent and at most one own dependency is tried for
outright removal; first acceptance wins. -/
def shrinkOptionalLoop {ε : Type} (revDeps : List (String × List String))
    (pred : List (String × Val) → Except ε Bool) (r : Nat) :
    Heap → List TraceEntry → Heap × Option Nat
  | h, [] => (h, none)
  | h, e :: rest =>
      let dependents := dictGetD revDeps e.id []
      if dependents.length > 1 ∧ e.dependencies.length ≤ 1 then
        let hn := removeEntry h r e.id
        if testTrace (heapGet hn.1 hn.2) pred then (hn.1, some hn.2)
        else shrinkOptionalLoop revDeps pred r hn.1 rest
      else shrinkOptionalLoop revDeps pred r h rest

/-- `DataflowAwareShrinker._shrink_optional_dependencies` (Phase C). -/
def shrinkOptionalDependencies {ε : Type}
    (revDeps : List (String × List String)) (h : Heap) (r : Nat)
    (pred : List (String × Val) → Except ε Bool) : Heap × Option Nat :=
  shrinkOptionalLoop revDeps pred r h (heapGet h r).entries

/-- `DataflowAwareShrinker.shrink_failing_example`: the dependency graph and
reverse dependencies are computed once from the input trace (`__init__`),
the three phases run in order, each on the ref produced by the previous
accepted phase, and the reconstructed value of the final trace is returned
with it. -/
def shrinkFailingExample {ε : Type} (h : Heap) (r : Nat)
    (pred : List (String × Val) → Except ε Bool) :
    Heap × List (String × Val) × Nat :=
  let selfTrace := heapGet h r
  let graph := selfTrace.getDependencyGraph
  let revDeps := selfTrace.getReverseDependencies
  let fuel := selfTrace.fuelBound
  let s1 := shrinkIndividualValues graph fuel h r pred
  let r1 := s1.2.getD r
  let s2 := shrinkDependencyChains graph s1.1 r1 pred
  let r2 := s2.2.getD r1
  let s3 := shrinkOptionalDependencies revDeps s2.1 r2 pred
  let r3 := s3.2.getD r2
  (s3.1, reconstructValue (heapGet s3.1 r3), r3)

/-- `shrink_with_dataflow`: build a shrinker over a one-cell heap holding
the live trace and run it. -/
def shrinkWithDataflow {ε : Type} (tr : GenerationTrace)
    (pred : List (String × Val) → Except ε Bool) :
    List (String × Val) × GenerationTrace :=
  let res := shrinkFailingExample [tr] 0 pred
  (res.2.1, heapGet res.1 res.2.2)

/-! ### Analysis-level definitions used in the theorem statements -/

/-- A directed dependency edge recorded in the trace: some entry carries id
`a` and lists `b` among its dependencies. -/
abbrev DepEdge (tr : GenerationTrace) (a b : String) : Prop :=
  ∃ e ∈ tr.entries, e.id = a ∧ b ∈ e.dependencies

/-- One undirected step of the dependency graph. -/
abbrev UndirectedAdj (tr : GenerationTrace) (a b : String) : Prop :=
  DepEdge tr a b ∨ DepEdge tr b a

/-- Connectivity under the undirected view of the dependency graph. -/
abbrev ConnectedIds (tr : GenerationTrace) : String → String → Prop :=
  Relation.ReflTransGen (UndirectedAdj tr)

/-- Forward reachability along dependency edges. -/
abbrev DepReach (tr : GenerationTrace) : String → String → Prop :=
  Relation.ReflTransGen (DepEdge tr)

/-- The trace invariants of the data model: entry ids are pairwise distinct
and every dependency id denotes an entry of the trace. -/
abbrev WellFormed (tr : GenerationTrace) : Prop :=
  (tr.entries.map (fun e => e.id)).Nodup ∧
    ∀ e ∈ tr.entries, ∀ d ∈ e.dependencies, d ∈ tr.entries.map (fun e => e.id)

/-- The id carries at least one variable binding. -/
abbrev BoundId (tr : GenerationTrace) (b : String) : Prop :=
  ∃ p ∈ tr.variable_assignments, p.2 = b

/-- Reverse-graph reachability in `n ≥ 1` steps where every id reached
along the way (the start excluded) carries a variable binding — the
traversal `get_dependent_variables` actually performs. -/
inductive BoundRevReachN (tr : GenerationTrace) : Nat → String → String → Prop where
  | step (a b : String) : DepEdge tr b a → BoundId tr b →
      BoundRevReachN tr 1 a b
  | head (n : Nat) (a m b : String) : DepEdge tr m a → BoundId tr m →
      BoundRevReachN tr n m b → BoundRevReachN tr (n + 1) a b

/-- Reverse-graph reachability through bound ids, any positive length. -/
abbrev BoundRevReach (tr : GenerationTrace) (start target : String) : Prop :=
  ∃ n, BoundRevReachN tr n start target

/-- The generation-order invariant of the data model: every dependency id
of the j-th entry names an entry created strictly earlier. -/
abbrev WellOrdered (tr : GenerationTrace) : Prop :=
  ∀ (j : Nat) (hj : j < tr.entries.length),
    ∀ d ∈ (tr.entries.get ⟨j, hj⟩).dependencies,
      d ∈ (tr.entries.take j).map (fun e => e.id)

/-- Follows the spec's words for C5: "depth = 1 + max depth of
dependencies, 0 for entries with none" (fuelled; the fuel is irrelevant on
acyclic graphs whose chains it dominates). -/
def specDepthAux (graph : List (String × List String)) :
    Nat → String → Nat
  | 0, _ => 0
  | fuel + 1, entryId =>
      let deps := dictGetD graph entryId []
      if deps.isEmpty then 0
      else 1 + (deps.map (specDepthAux graph fuel)).foldl max 0

/-- Follows the spec's words: the dependency depth of an entry id. -/
def specDepth (tr : GenerationTrace) (entryId : String) : Nat :=
  specDepthAux tr.getDependencyGraph tr.entries.length entryId

/-- The C5 claim as a predicate on a trace: Phase A's processing order is
ascending in spec-depth. -/
abbrev phaseAProcessedAscending (tr : GenerationTrace) : Prop :=
  (sortByDependencyDepth tr.getDependencyGraph tr.fuelBound tr.entries).Pairwise
    (fun e1 e2 => specDepth tr e1.id ≤ specDepth tr e2.id)

/-- Heap evolution discipline of the shrinker: cells present before a step
are untouched by it (new cells may be appended and then mutated). -/
def HExt (h h2 : Heap) : Prop :=
  heapLen h ≤ heapLen h2 ∧
    ∀ i, i < heapLen h → h2[i]? = h[i]?

/-- Number of graph nodes not yet visited: the termination measure showing
`fuelBound` is enough fuel for every traversal. -/
def unvisitedCount (tr : GenerationTrace) (acc : List String) : Nat :=
  tr.allNodeIds.countP (fun x => decide (x ∉ acc))

/-- One step of the outer loop of `get_connected_components`: skip an
already-visited entry id, otherwise run the dfs seeded with the global
visited set and an empty component and append the component. -/
def ccStep (tr : GenerationTrace) (acc : List String × List (List String))
    (e : TraceEntry) : List String × List (List String) :=
  if e.id ∈ acc.1 then acc
  else
    let vc := tr.dfsComponent tr.fuelBound e.id (acc.1, [])
    (vc.1, acc.2 ++ [vc.2])

/-- Invariant of the outer loop of `get_connected_components`: the visited
set is exactly the concatenation of the components found so far, has no
duplicates, holds only entry ids, and is closed under undirected adjacency;
each component is itself adjacency-closed and pairwise connected. -/
def CCInv (tr : GenerationTrace) (acc : List String × List (List String)) : Prop :=
  acc.1 = acc.2.flatten ∧
  acc.1.Nodup ∧
  (∀ x ∈ acc.1, x ∈ tr.entries.map (fun e => e.id)) ∧
  (∀ x ∈ acc.1, ∀ y, UndirectedAdj tr x y → y ∈ acc.1) ∧
  (∀ cc ∈ acc.2, ∀ x ∈ cc, ∀ y, UndirectedAdj tr x y → y ∈ cc) ∧
  (∀ cc ∈ acc.2, ∀ x ∈ cc, ∀ y ∈ cc, ConnectedIds tr x y)

/-! ### Concrete traces used in refutations and witnesses -/

/-- Entry literal helper for the concrete examples below. -/
def mkEntry (i : String) (deps : List String) (v : Val) : TraceEntry :=
  { id := i, strategy := ⟨0⟩, value := v, dependencies := deps }

/-- Draw state with two entries both holding the value `0`. -/
def c6state : DrawState :=
  { trace :=
    { entries := [mkEntry "t0" [] (.int 0), mkEntry "t1" ["t0"] (.int 0)],
      nextId := 2 } }

/-- Trace where `t1` sits between two bound entries but carries no binding
itself: `x ↦ t0`, `t1` unbound, `z ↦ t2`. -/
def c4trace : GenerationTrace :=
  { entries := [mkEntry "t0" [] (.int 0), mkEntry "t1" ["t0"] (.int 1),
                mkEntry "t2" ["t1"] (.int 2)],
    variable_assignments := [("x", "t0"), ("z", "t2")],
    nextId := 3 }

/-- Variant of `c4trace` with every entry bound. -/
def c4traceAllBound : GenerationTrace :=
  { entries := [mkEntry "t0" [] (.int 0), mkEntry "t1" ["t0"] (.int 1),
                mkEntry "t2" ["t1"] (.int 2)],
    variable_assignments := [("x", "t0"), ("y", "t1"), ("z", "t2")],
    nextId := 3 }

/-- Trace exercising the shared-visited-set depth computation: `t4` depends
on `[t2, t3]` with `t3` itself depending on `t2`, so the first branch marks
`t2`'s chain visited and the `t3` branch undercounts. -/
def c5trace : GenerationTrace :=
  { entries := [mkEntry "t0" [] (.int 0), mkEntry "t1" ["t0"] (.int 0),
                mkEntry "t2" ["t1"] (.int 0), mkEntry "t3" ["t2"] (.int 0),
                mkEntry "t4" ["t2", "t3"] (.int 0), mkEntry "t5" ["t2"] (.int 0)],
    nextId := 6 }

/-- Two-draw script for the tracer witnesses. -/
def c9script : List (Strategy × Val) :=
  [(⟨1⟩, .int 3), (⟨2⟩, .int 4)]

/-- Two-entry chain bound to `a` and `b`, for the closure witnesses. -/
def c10trace : GenerationTrace :=
  { entries := [mkEntry "t0" [] (.int 0), mkEntry "t1" ["t0"] (.int 1)],
    variable_assignments := [("a", "t0"), ("b", "t1")],
    nextId := 2 }

/-- Trace with two undirected components, `{t0, t1, t2}` and `{t3}`. -/
def c7trace : GenerationTrace :=
  { entries := [mkEntry "t0" [] (.int 0), mkEntry "t1" ["t0"] (.int 1),
                mkEntry "t2" ["t0"] (.int 2), mkEntry "t3" [] (.int 3)],
    nextId := 4 }

/-- Failing example for the shrinker witnesses: `t0 = 80` with dependent
`t1 = 70`. -/
def c1trace : GenerationTrace :=
  { entries := [mkEntry "t0" [] (.int 80), mkEntry "t1" ["t0"] (.int 70)],
    nextId := 2 }

/-- Predicate raising exactly when `t0 > 50` and `5 * t1 > 4 * t0` on the
reconstructed dict (the spec's first concrete scenario). -/
def c1pred : List (String × Val) → Except String Bool := fun d =>
  match dictGet? d "t0", dictGet? d "t1" with
  | some (.int x), some (.int y) =>
      if x > 50 ∧ 5 * y > 4 * x then .error "fail" else .ok true
  | _, _ => .ok true

/-- Failing example for the frame-effect witness. -/
def c8trace : GenerationTrace :=
  { entries := [mkEntry "t0" [] (.int 8), mkEntry "t1" ["t0"] (.int 3)],
    variable_assignments := [("x", "t0")],
    nextId := 2 }

/-- Predicate that always raises, for the frame-effect witness. -/
def c8pred : List (String × Val) → Except Unit Bool := fun _ => .error ()

/-! ### Theorems -/

theorem tryShrinkInt_eq (v : Int) :
    tryShrinkInt v = if v = 0 ∨ v = -1 then v else v / 2 := by
  have h2 : (0 : Int) ≤ 2 := by omega
  simp only [tryShrinkInt, Int.fdiv_eq_ediv _ h2]
  split_ifs <;> omega

theorem tryShrinkInt_fixed_neg_one : ∀ n : Nat, tryShrinkInt^[n] (-1 : Int) = -1 := by
  intro n
  induction n with
  | zero => rfl
  | succ n ih =>
      rw [Function.iterate_succ_apply', ih, tryShrinkInt_eq]
      simp

theorem tryShrinkInt_reaches_zero :
    ∀ k : Nat, ∀ v : Int, 0 ≤ v → v.natAbs ≤ k → ∃ n, tryShrinkInt^[n] v = 0 := by
  intro k
  induction k with
  | zero =>
      intro v hv hk
      have hz : v = 0 := by omega
      exact ⟨0, by simp [hz]⟩
  | succ k ih =>
      intro v hv hk
      rcases eq_or_lt_of_le hv with h0 | hpos
      · exact ⟨0, by simp [← h0]⟩
      · have hstep : tryShrinkInt v = v / 2 := by
          rw [tryShrinkInt_eq]
          have : ¬(v = 0 ∨ v = -1) := by omega
          simp [this]
        have hle : (v / 2).natAbs ≤ k := by omega
        have hnn : 0 ≤ v / 2 := by omega
        obtain ⟨n, hn⟩ := ih (v / 2) hnn hle
        exact ⟨n + 1, by rw [Function.iterate_succ_apply, hstep, hn]⟩

theorem tryShrinkInt_reaches_neg_one :
    ∀ k : Nat, ∀ v : Int, v < 0 → v.natAbs ≤ k → ∃ n, tryShrinkInt^[n] v = -1 := by
  intro k
  induction k with
  | zero =>
      intro v hv hk
      exact absurd hk (by omega)
  | succ k ih =>
      intro v hv hk
      rcases eq_or_ne v (-1) with h1 | h1
      · exact ⟨0, by simp [h1]⟩
      · have hstep : tryShrinkInt v = v / 2 := by
          rw [tryShrinkInt_eq]
          have : ¬(v = 0 ∨ v = -1) := by omega
          simp [this]
        have hneg : v / 2 < 0 := by omega
        have hle : (v / 2).natAbs ≤ k := by omega
        obtain ⟨n, hn⟩ := ih (v / 2) hneg hle
        exact ⟨n + 1, by rw [Function.iterate_succ_apply, hstep, hn]⟩

/-- C3 counterexample: from `-1` the integer shrink transform never reaches
`0` — `-1 // 2 = -1` under Python floor division, so `-1` is already a
fixed point distinct from `0`. -/
theorem c3_counterexample : ¬ ∃ n : Nat, tryShrinkInt^[n] (-1 : Int) = 0 := by
  rintro ⟨n, hn⟩
  rw [tryShrinkInt_fixed_neg_one n] at hn
  exact absurd hn (by omega)

/-- C3 (amended): the integer shrink transform never increases the absolute
value; iterating it from any nonnegative integer reaches the fixed point
`0`, and from any negative integer it reaches the fixed point `-1` (not
`0`). -/
theorem c3_int_shrink_transform :
    (∀ v : Int, (tryShrinkInt v).natAbs ≤ v.natAbs) ∧
    (∀ v : Int, 0 ≤ v → ∃ n, tryShrinkInt^[n] v = 0) ∧
    (∀ v : Int, v < 0 → ∃ n, tryShrinkInt^[n] v = -1) := by
  refine ⟨?_, ?_, ?_⟩
  · intro v
    rw [tryShrinkInt_eq]
    split_ifs <;> omega
  · intro v hv
    exact tryShrinkInt_reaches_zero v.natAbs v hv le_rfl
  · intro v hv
    exact tryShrinkInt_reaches_neg_one v.natAbs v hv le_rfl

/-- C3 witness: the amended theorem applied at the concrete inputs `12`
and `-9`. -/
theorem c3_int_shrink_transform_witness :
    (∃ n, tryShrinkInt^[n] (12 : Int) = 0) ∧
    (∃ n, tryShrinkInt^[n] (-9 : Int) = -1) :=
  ⟨c3_int_shrink_transform.2.1 12 (by omega),
   c3_int_shrink_transform.2.2 (-9) (by omega)⟩

/-- C2: a shrink trial accepts a candidate trace exactly when the predicate
raises (any exception kind, any payload) on the reconstructed value, and a
normal return rejects it regardless of the boolean returned. -/
theorem c2_test_trace_accepts_iff_raises {ε : Type} (tr : GenerationTrace)
    (pred : List (String × Val) → Except ε Bool) :
    (testTrace tr pred = true ↔ ∃ e, pred (reconstructValue tr) = .error e) ∧
    (∀ b, pred (reconstructValue tr) = .ok b → testTrace tr pred = false) := by
  unfold testTrace
  cases hp : pred (reconstructValue tr) <;> simp [hp]

/-- C2 witness: the theorem applied to a concrete one-entry trace with an
always-raising predicate and with an always-returning predicate. -/
theorem c2_test_trace_witness :
    (testTrace {} (fun _ => Except.error "boom") = true) ∧
    (testTrace {} (fun _ => Except.ok (ε := String) false) = false) :=
  ⟨(c2_test_trace_accepts_iff_raises {} (fun _ => Except.error "boom")).1.mpr
      ⟨"boom", rfl⟩,
   (c2_test_trace_accepts_iff_raises {} (fun _ => Except.ok false)).2 false rfl⟩

theorem char_toNat_ofNat (m : Nat) (h : m < 100) : (Char.ofNat m).toNat = m := by
  have hv : m < 55296 ∨ 57343 < m ∧ m < 1114112 := Or.inl (by omega)
  simp [Char.ofNat, hv, Char.ofNatAux, Char.toNat, UInt32.toNat, UInt32.ofNatCore,
        BitVec.toNat_ofNatLt]

theorem natDigitsAux_decode :
    ∀ fuel n, n < fuel → ∀ a : Nat,
      List.foldl (fun a c => a * 10 + (c.toNat - 48)) a (natDigitsAux fuel n)
        = a * 10 ^ (natDigitsAux fuel n).length + n := by
  intro fuel
  induction fuel with
  | zero => intro n hn; omega
  | succ fuel ih =>
      intro n hn a
      by_cases h10 : n < 10
      · simp [natDigitsAux, h10, char_toNat_ofNat (48 + n) (by omega)]
      · have hdiv : n / 10 < fuel := by omega
        have hstep : natDigitsAux (fuel + 1) n
            = natDigitsAux fuel (n / 10) ++ [Char.ofNat (48 + n % 10)] := by
          simp [natDigitsAux, h10]
        rw [hstep, List.foldl_append, ih (n / 10) hdiv a]
        simp [char_toNat_ofNat (48 + n % 10) (by omega), pow_succ]
        ring_nf
        omega

theorem decodeDigits_natDigits (n : Nat) : decodeDigits (natDigits n) = n := by
  have h := natDigitsAux_decode (n + 1) n (by omega) 0
  simpa [decodeDigits, natDigits] using h

theorem idOf_injective : Function.Injective idOf := by
  intro m n h
  have hdata : ('t' :: natDigits m) = ('t' :: natDigits n) := by
    have := congrArg String.data h
    simpa [idOf, String.data_append] using this
  have hdigits : natDigits m = natDigits n := by
    exact List.tail_eq_of_cons_eq hdata
  calc m = decodeDigits (natDigits m) := (decodeDigits_natDigits m).symm
    _ = decodeDigits (natDigits n) := by rw [hdigits]
    _ = n := decodeDigits_natDigits n

theorem dictInsert_cons {α : Type} (p : String × α) (d : List (String × α))
    (k : String) (v : α) :
    dictInsert (p :: d) k v =
      if p.1 = k then (k, v) :: d.map (fun q => if q.1 = k then (k, v) else q)
      else p :: dictInsert d k v := by
  by_cases hp : p.1 = k
  · simp [dictInsert, hp]
  · by_cases hd : d.any (fun q => q.1 = k)
    · simp [dictInsert, hp, hd]
    · simp [dictInsert, hp, hd]

theorem dictGet?_cons {α : Type} (p : String × α) (d : List (String × α))
    (k : String) :
    dictGet? (p :: d) k = if p.1 = k then some p.2 else dictGet? d k := by
  by_cases hp : p.1 = k <;> simp [dictGet?, List.find?_cons, hp]

theorem dictGet?_map_update_ne {α : Type} (d : List (String × α))
    (k k2 : String) (v : α) (h : k2 ≠ k) :
    dictGet? (d.map (fun q => if q.1 = k then (k, v) else q)) k2
      = dictGet? d k2 := by
  induction d with
  | nil => simp [dictGet?]
  | cons p rest ih =>
      by_cases hp : p.1 = k
      · have hne : ¬((k : String) = k2) := fun hc => h hc.symm
        simp [hp, dictGet?_cons, hne, ih, h]
      · by_cases hp2 : p.1 = k2 <;> simp [hp, hp2, dictGet?_cons, ih, h]

theorem dictGet?_dictInsert_self {α : Type} (d : List (String × α))
    (k : String) (v : α) :
    dictGet? (dictInsert d k v) k = some v := by
  induction d with
  | nil => simp [dictInsert, dictGet?]
  | cons p rest ih =>
      rw [dictInsert_cons]
      by_cases hp : p.1 = k
      · simp [hp, dictGet?_cons]
      · simp [hp, dictGet?_cons, ih]

theorem dictGet?_dictInsert_ne {α : Type} (d : List (String × α))
    (k k2 : String) (v : α) (h : k2 ≠ k) :
    dictGet? (dictInsert d k v) k2 = dictGet? d k2 := by
  induction d with
  | nil => simp [dictInsert, dictGet?, List.find?_cons, Ne.symm h]
  | cons p rest ih =>
      rw [dictInsert_cons]
      by_cases hp : p.1 = k
      · have hne : ¬((k : String) = k2) := fun hc => h hc.symm
        rw [if_pos hp, dictGet?_cons, dictGet?_cons]
        simp only [hne, if_false, hp]
        rw [dictGet?_map_update_ne rest k k2 v h]
      · rw [if_neg hp, dictGet?_cons, dictGet?_cons]
        by_cases hp2 : p.1 = k2
        · simp [hp2]
        · simp [hp2, ih]

theorem reverse_find?_eq_of_last {α : Type} (l : List α) (p : α → Bool)
    (i : Nat) (hi : i < l.length) (hp : p (l.get ⟨i, hi⟩) = true)
    (hafter : ∀ y ∈ l.drop (i + 1), p y = false) :
    l.reverse.find? p = some (l.get ⟨i, hi⟩) := by
  have hsplit : l = l.take (i + 1) ++ l.drop (i + 1) := (List.take_append_drop _ l).symm
  have htake : l.take (i + 1) = l.take i ++ [l.get ⟨i, hi⟩] := by
    simp [List.take_succ, List.get?_eq_get hi, List.get_eq_getElem]
  calc l.reverse.find? p
      = ((l.take (i + 1) ++ l.drop (i + 1)).reverse).find? p := by rw [← hsplit]
    _ = ((l.drop (i + 1)).reverse ++ (l.take (i + 1)).reverse).find? p := by
        rw [List.reverse_append]
    _ = some (l.get ⟨i, hi⟩) := by
        rw [List.find?_append]
        have hnone : (l.drop (i + 1)).reverse.find? p = none := by
          rw [List.find?_eq_none]
          intro x hx
          simp [hafter x (List.mem_reverse.mp hx)]
        rw [hnone, htake]
        simp only [List.reverse_append, List.reverse_cons, List.reverse_nil,
          List.nil_append, List.singleton_append, List.find?_cons,
          Option.none_orElse]
        have hp2 : p (l.get ⟨i, hi⟩) = true := hp
        rw [List.get_eq_getElem] at hp2
        simp [hp2]

/-- C6: `record_assignment` binds the name to the most recently created
entry whose stored value compares equal to the given value (newest-first
scan), leaving the entries untouched, and is a no-op when no entry holds an
equal value. -/
theorem c6_record_assignment_binds_newest (st : DrawState) (name : String)
    (v : Val) :
    ((∀ e ∈ st.trace.entries, e.value ≠ v) →
        TraceableDrawFn.recordAssignment st name v = st) ∧
    (∀ i, ∀ hi : i < st.trace.entries.length,
        (st.trace.entries.get ⟨i, hi⟩).value = v →
        (∀ y ∈ st.trace.entries.drop (i + 1), y.value ≠ v) →
        dictGet? (TraceableDrawFn.recordAssignment st name v).trace.variable_assignments
            name = some (st.trace.entries.get ⟨i, hi⟩).id ∧
        (TraceableDrawFn.recordAssignment st name v).trace.entries
          = st.trace.entries) := by
  constructor
  · intro hnone
    have hfind : st.trace.entries.reverse.find? (fun e => e.value = v) = none := by
      rw [List.find?_eq_none]
      intro e he
      simpa using hnone e (List.mem_reverse.mp he)
    simp [TraceableDrawFn.recordAssignment, hfind]
  · intro i hi hval hafter
    have hfind : st.trace.entries.reverse.find? (fun e => e.value = v)
        = some (st.trace.entries.get ⟨i, hi⟩) := by
      apply reverse_find?_eq_of_last
      · simpa using hval
      · intro y hy
        simpa using hafter y hy
    constructor
    · simp [TraceableDrawFn.recordAssignment, hfind,
            GenerationTrace.assignVariable, dictGet?_dictInsert_self]
    · simp [TraceableDrawFn.recordAssignment, hfind,
            GenerationTrace.assignVariable]

/-- C6 witness: on the two-entries-both-zero state, binding `"v"` to `0`
picks `t1` (the newest), and binding to `9` (no match) is a no-op. -/
theorem c6_record_assignment_witness :
    dictGet? (TraceableDrawFn.recordAssignment c6state "v"
        (Val.int 0)).trace.variable_assignments "v" = some "t1" ∧
    TraceableDrawFn.recordAssignment c6state "v" (Val.int 9) = c6state := by
  constructor
  · have h := ((c6_record_assignment_binds_newest c6state "v" (Val.int 0)).2 1
      (by decide) (by decide) (by decide)).1
    simpa using h
  · exact (c6_record_assignment_binds_newest c6state "v" (Val.int 9)).1 (by decide)

theorem runDraws_append (script : List (Strategy × Val)) (sv : Strategy × Val) :
    runDraws (script ++ [sv])
      = (TraceableDrawFn.call (runDraws script) sv.1 sv.2).2 := by
  simp [runDraws, List.foldl_append]

theorem runDraws_invariant (script : List (Strategy × Val)) :
    (runDraws script).trace.nextId = (runDraws script).trace.entries.length ∧
    (runDraws script).currentDependencies
      = (List.range (runDraws script).trace.entries.length).map idOf ∧
    ∀ i, ∀ hi : i < (runDraws script).trace.entries.length,
      ((runDraws script).trace.entries.get ⟨i, hi⟩).id = idOf i ∧
      ((runDraws script).trace.entries.get ⟨i, hi⟩).dependencies
        = (List.range i).map idOf := by
  induction script using List.reverseRecOn with
  | nil =>
      refine ⟨rfl, rfl, ?_⟩
      intro i hi
      simp [runDraws, createTraceableDraw] at hi
  | append_singleton script sv ih =>
      obtain ⟨h1, h2, h3⟩ := ih
      rw [runDraws_append]
      simp only [TraceableDrawFn.call, GenerationTrace.addEntry]
      constructor
      · simp [h1]
      constructor
      · rw [h2, h1]
        simp [List.range_succ]
      · intro i hi
        simp only [List.length_append, List.length_cons, List.length_nil] at hi
        simp only [List.get_eq_getElem]
        by_cases hlt : i < (runDraws script).trace.entries.length
        · rw [List.getElem_append_left hlt]
          have h4 := h3 i hlt
          simpa [List.get_eq_getElem] using h4
        · have hieq : i = (runDraws script).trace.entries.length := by omega
          rw [List.getElem_concat_length _ _ _ hieq]
          rw [h1, h2, hieq]
          exact ⟨rfl, rfl⟩

/-- C9: in a trace built only through plain draws, every entry's
dependencies are ids of strictly earlier entries, no entry depends on its
own id, and ids are handed out in strictly increasing counter order (the
i-th entry gets id `t{i}`) and are never reused. -/
theorem c9_tracer_trace_invariants (script : List (Strategy × Val)) :
    (∀ i, ∀ hi : i < (runDraws script).trace.entries.length,
        ((runDraws script).trace.entries.get ⟨i, hi⟩).id = idOf i) ∧
    ((runDraws script).trace.entries.map (fun e => e.id)).Nodup ∧
    (∀ i, ∀ hi : i < (runDraws script).trace.entries.length,
        ∀ d ∈ ((runDraws script).trace.entries.get ⟨i, hi⟩).dependencies,
          ∃ j, ∃ hj : j < (runDraws script).trace.entries.length,
            j < i ∧ ((runDraws script).trace.entries.get ⟨j, hj⟩).id = d) ∧
    (∀ i, ∀ hi : i < (runDraws script).trace.entries.length,
        ((runDraws script).trace.entries.get ⟨i, hi⟩).id ∉
          ((runDraws script).trace.entries.get ⟨i, hi⟩).dependencies) := by
  obtain ⟨h1, h2, h3⟩ := runDraws_invariant script
  have hids : ∀ i, ∀ hi : i < (runDraws script).trace.entries.length,
      ((runDraws script).trace.entries.get ⟨i, hi⟩).id = idOf i :=
    fun i hi => (h3 i hi).1
  have hmap : ((runDraws script).trace.entries.map (fun e => e.id))
      = (List.range (runDraws script).trace.entries.length).map idOf := by
    apply List.ext_get
    · simp
    · intro i hi1 hi2
      simp only [List.get_eq_getElem, List.getElem_map, List.getElem_range]
      have hi3 : i < (runDraws script).trace.entries.length := by
        simpa using hi1
      have := hids i hi3
      simpa [List.get_eq_getElem] using this
  refine ⟨hids, ?_, ?_, ?_⟩
  · rw [hmap]
    exact (List.nodup_range _).map idOf_injective
  · intro i hi d hd
    rw [(h3 i hi).2] at hd
    obtain ⟨j, hj, hjd⟩ := List.mem_map.mp hd
    have hjr : j < i := List.mem_range.mp hj
    refine ⟨j, by omega, hjr, ?_⟩
    rw [hids j (by omega), hjd]
  · intro i hi hmem
    rw [(h3 i hi).2, hids i hi] at hmem
    obtain ⟨j, hj, hjd⟩ := List.mem_map.mp hmem
    have : j = i := idOf_injective hjd
    have := List.mem_range.mp hj
    omega

/-- C9 witness: the theorem applied to the concrete two-draw script; the
second entry is `t1` and its sole dependency is the strictly earlier
`t0`. -/
theorem c9_tracer_trace_invariants_witness :
    ((runDraws c9script).trace.entries.map (fun e => e.id)).Nodup ∧
    (∃ j, ∃ hj : j < (runDraws c9script).trace.entries.length,
      j < 1 ∧ ((runDraws c9script).trace.entries.get ⟨j, hj⟩).id = "t0") := by
  refine ⟨(c9_tracer_trace_invariants c9script).2.1, ?_⟩
  exact (c9_tracer_trace_invariants c9script).2.2.1 1 (by decide) "t0" (by decide)

theorem foldl_extends {β : Type} {f : List String → β → List String}
    (hf : ∀ a d, ∃ t, f a d = a ++ t) :
    ∀ (ds : List β) (acc : List String),
      ∃ t, ds.foldl f acc = acc ++ t := by
  intro ds
  induction ds with
  | nil => exact fun acc => ⟨[], by simp⟩
  | cons d ds ih =>
      intro acc
      obtain ⟨t1, h1⟩ := hf acc d
      obtain ⟨t2, h2⟩ := ih (f acc d)
      exact ⟨t1 ++ t2, by rw [List.foldl_cons, h2, h1, List.append_assoc]⟩

theorem collectDeps_extends (tr : GenerationTrace) :
    ∀ fuel nodeId acc, ∃ t, tr.collectDeps fuel nodeId acc = acc ++ t := by
  intro fuel
  induction fuel with
  | zero => exact fun nodeId acc => ⟨[], by simp [GenerationTrace.collectDeps]⟩
  | succ fuel ih =>
      intro nodeId acc
      by_cases hmem : nodeId ∈ acc
      · exact ⟨[], by simp [GenerationTrace.collectDeps, hmem]⟩
      · cases hfind : tr.findEntry? nodeId with
        | none => exact ⟨[nodeId], by simp [GenerationTrace.collectDeps, hmem, hfind]⟩
        | some e =>
            obtain ⟨t, ht⟩ :=
              foldl_extends (fun a d => ih d a) e.dependencies (acc ++ [nodeId])
            exact ⟨[nodeId] ++ t, by
              simp only [GenerationTrace.collectDeps, hmem, if_false, hfind]
              rw [ht, List.append_assoc]⟩

theorem collectDeps_mem_self (tr : GenerationTrace) (fuel : Nat)
    (nodeId : String) (acc : List String) (hfuel : 0 < fuel) :
    nodeId ∈ tr.collectDeps fuel nodeId acc := by
  cases fuel with
  | zero => omega
  | succ fuel =>
      by_cases hmem : nodeId ∈ acc
      · simp [GenerationTrace.collectDeps, hmem]
      · cases hfind : tr.findEntry? nodeId with
        | none => simp [GenerationTrace.collectDeps, hmem, hfind]
        | some e =>
            obtain ⟨t, ht⟩ :=
              foldl_extends (fun a d => collectDeps_extends tr fuel d a)
                e.dependencies (acc ++ [nodeId])
            simp only [GenerationTrace.collectDeps, hmem, if_false, hfind, ht]
            simp

theorem mem_setAdd {l : List String} {x y : String} :
    y ∈ setAdd l x ↔ y ∈ l ∨ y = x := by
  by_cases h : x ∈ l
  · constructor
    · intro hy
      simpa [setAdd, h] using Or.inl hy
    · intro hy
      rcases hy with hy | rfl
      · simpa [setAdd, h] using hy
      · simp [setAdd, h]
  · simp [setAdd, h]

theorem mem_foldl_setAdd (l : List String) :
    ∀ (acc : List String) (x : String),
      x ∈ l.foldl setAdd acc ↔ x ∈ acc ∨ x ∈ l := by
  induction l with
  | nil => simp
  | cons a l ih =>
      intro acc x
      rw [List.foldl_cons, ih]
      rw [mem_setAdd]
      constructor
      · rintro ((h | rfl) | h)
        · exact Or.inl h
        · exact Or.inr (List.mem_cons_self _ _)
        · exact Or.inr (List.mem_cons_of_mem _ h)
      · rintro (h | h)
        · exact Or.inl (Or.inl h)
        · rcases List.mem_cons.mp h with rfl | h
          · exact Or.inl (Or.inr rfl)
          · exact Or.inr h

theorem mem_pySet {l : List String} {x : String} : x ∈ pySet l ↔ x ∈ l := by
  simp [pySet, mem_foldl_setAdd]

theorem findEntry?_some_spec (tr : GenerationTrace) {nodeId : String}
    {e : TraceEntry} (h : tr.findEntry? nodeId = some e) :
    e ∈ tr.entries ∧ e.id = nodeId := by
  refine ⟨List.mem_of_find?_eq_some h, ?_⟩
  have := List.find?_some h
  simpa using this

theorem id_mem_allNodeIds (tr : GenerationTrace) {e : TraceEntry}
    (he : e ∈ tr.entries) : e.id ∈ tr.allNodeIds := by
  rw [GenerationTrace.allNodeIds, mem_pySet]
  exact List.mem_append_left _ (List.mem_map_of_mem _ he)

theorem dep_mem_allNodeIds (tr : GenerationTrace) {e : TraceEntry}
    {d : String} (he : e ∈ tr.entries) (hd : d ∈ e.dependencies) :
    d ∈ tr.allNodeIds := by
  rw [GenerationTrace.allNodeIds, mem_pySet]
  refine List.mem_append_right _ ?_
  exact List.mem_flatMap.mpr ⟨e, he, hd⟩

theorem countP_le_of_imp {α : Type} (l : List α) (p q : α → Bool)
    (h : ∀ x ∈ l, p x = true → q x = true) : l.countP p ≤ l.countP q := by
  induction l with
  | nil => simp
  | cons a l ih =>
      rw [List.countP_cons, List.countP_cons]
      have hle := ih (fun x hx => h x (List.mem_cons_of_mem a hx))
      by_cases hp : p a = true
      · have hq := h a (List.mem_cons_self a l) hp
        simp [hp, hq]
        omega
      · simp at hp
        simp [hp]
        omega

theorem countP_lt_of_witness {α : Type} (l : List α) (p q : α → Bool)
    (h : ∀ x ∈ l, p x = true → q x = true) (w : α) (hw : w ∈ l)
    (hpw : p w = false) (hqw : q w = true) : l.countP p < l.countP q := by
  induction l with
  | nil => simp at hw
  | cons a l ih =>
      rw [List.countP_cons, List.countP_cons]
      rcases List.mem_cons.mp hw with rfl | hw2
      · have hle := countP_le_of_imp l p q
          (fun x hx => h x (List.mem_cons_of_mem w hx))
        simp [hpw, hqw]
        omega
      · have hlt := ih (fun x hx => h x (List.mem_cons_of_mem a hx)) hw2
        by_cases hp : p a = true
        · have hq := h a (List.mem_cons_self a l) hp
          simp [hp, hq]
          omega
        · simp at hp
          simp [hp]
          omega

theorem unvisitedCount_le (tr : GenerationTrace) {acc acc2 : List String}
    (hsub : ∀ x, x ∈ acc → x ∈ acc2) :
    unvisitedCount tr acc2 ≤ unvisitedCount tr acc := by
  apply countP_le_of_imp
  intro x _ hx
  simp only [decide_eq_true_eq] at hx ⊢
  exact fun hc => hx (hsub x hc)

theorem unvisitedCount_lt (tr : GenerationTrace) {acc : List String}
    {nodeId : String} (hmem : nodeId ∈ tr.allNodeIds) (hnot : nodeId ∉ acc) :
    unvisitedCount tr (acc ++ [nodeId]) < unvisitedCount tr acc := by
  refine countP_lt_of_witness _ _ _ ?_ nodeId hmem ?_ ?_
  · intro x _ hx
    simp only [decide_eq_true_eq, List.mem_append] at hx ⊢
    exact fun hc => hx (Or.inl hc)
  · simp
  · simpa using hnot

theorem foldlCollect_mem_mono (tr : GenerationTrace) (fuel : Nat)
    (ds acc : List String) (y : String) (hy : y ∈ acc) :
    y ∈ ds.foldl (fun a dd => tr.collectDeps fuel dd a) acc := by
  obtain ⟨t, ht⟩ :=
    foldl_extends (fun a d => collectDeps_extends tr fuel d a) ds acc
  rw [ht]
  exact List.mem_append_left _ hy

theorem foldlCollect_mem_processed (tr : GenerationTrace) (fuel : Nat)
    (hpos : 0 < fuel) :
    ∀ (ds acc : List String), ∀ d ∈ ds,
      d ∈ ds.foldl (fun a dd => tr.collectDeps fuel dd a) acc := by
  intro ds
  induction ds with
  | nil => intro acc d hd; simp at hd
  | cons d0 ds ih =>
      intro acc d hd
      rw [List.foldl_cons]
      rcases List.mem_cons.mp hd with rfl | hd2
      · exact foldlCollect_mem_mono tr fuel ds _ d
          (collectDeps_mem_self tr fuel d acc hpos)
      · exact ih _ d hd2

theorem find?_eq_of_nodup_ids (l : List TraceEntry)
    (hnodup : (l.map (fun e => e.id)).Nodup) {e : TraceEntry} (he : e ∈ l) :
    l.find? (fun x => x.id = e.id) = some e := by
  induction l with
  | nil => simp at he
  | cons a l ih =>
      have hnodup2 : a.id ∉ l.map (fun e => e.id) ∧
          (l.map (fun e => e.id)).Nodup := by
        rw [List.map_cons] at hnodup
        exact List.nodup_cons.mp hnodup
      rcases List.mem_cons.mp he with rfl | he2
      · simp [List.find?_cons]
      · have hane : ¬(a.id = e.id) := by
          intro hc
          refine hnodup2.1 ?_
          rw [hc]
          exact List.mem_map_of_mem _ he2
        rw [List.find?_cons]
        simp [hane]
        exact ih hnodup2.2 he2

theorem findEntry?_of_wf (tr : GenerationTrace)
    (hnodup : (tr.entries.map (fun e => e.id)).Nodup) {e : TraceEntry}
    (he : e ∈ tr.entries) : tr.findEntry? e.id = some e :=
  find?_eq_of_nodup_ids tr.entries hnodup he

theorem collectDeps_closed (tr : GenerationTrace) :
    ∀ fuel, ∀ (acc : List String) (nodeId : String),
      unvisitedCount tr acc < fuel →
      ∀ x ∈ tr.collectDeps fuel nodeId acc, x ∉ acc →
      ∀ e, tr.findEntry? x = some e →
      ∀ d ∈ e.dependencies, d ∈ tr.collectDeps fuel nodeId acc := by
  intro fuel
  induction fuel with
  | zero => intro acc nodeId hc; omega
  | succ fuel ih =>
      have hfold : ∀ (ds acc : List String), unvisitedCount tr acc < fuel →
          ∀ x ∈ ds.foldl (fun a dd => tr.collectDeps fuel dd a) acc, x ∉ acc →
          ∀ e, tr.findEntry? x = some e →
          ∀ d ∈ e.dependencies,
            d ∈ ds.foldl (fun a dd => tr.collectDeps fuel dd a) acc := by
        intro ds
        induction ds with
        | nil =>
            intro acc hc x hx hxacc
            rw [List.foldl_nil] at hx
            exact absurd hx hxacc
        | cons d0 ds ihds =>
            intro acc hc x hx hxacc e he d hd
            rw [List.foldl_cons] at hx ⊢
            by_cases hxmid : x ∈ tr.collectDeps fuel d0 acc
            · have hdeps := ih acc d0 hc x hxmid hxacc e he d hd
              exact foldlCollect_mem_mono tr fuel ds _ d hdeps
            · have hcmid : unvisitedCount tr (tr.collectDeps fuel d0 acc) < fuel := by
                obtain ⟨t, ht⟩ := collectDeps_extends tr fuel d0 acc
                have hsub : ∀ y, y ∈ acc → y ∈ tr.collectDeps fuel d0 acc := by
                  rw [ht]
                  exact fun y hy => List.mem_append_left _ hy
                exact lt_of_le_of_lt (unvisitedCount_le tr hsub) hc
              exact ihds _ hcmid x hx hxmid e he d hd
      intro acc nodeId hc x hx hxacc e he d hd
      by_cases hmem : nodeId ∈ acc
      · rw [show tr.collectDeps (fuel + 1) nodeId acc = acc from by
          simp [GenerationTrace.collectDeps, hmem]] at hx
        exact absurd hx hxacc
      · cases hfind : tr.findEntry? nodeId with
        | none =>
            have hres : tr.collectDeps (fuel + 1) nodeId acc = acc ++ [nodeId] := by
              simp [GenerationTrace.collectDeps, hmem, hfind]
            rw [hres] at hx
            rcases List.mem_append.mp hx with h1 | h1
            · exact absurd h1 hxacc
            · have hxn : x = nodeId := by simpa using h1
              rw [hxn, hfind] at he
              exact Option.noConfusion he
        | some e0 =>
            have hn0 : nodeId ∈ tr.allNodeIds := by
              obtain ⟨hmem0, hid⟩ := findEntry?_some_spec tr hfind
              rw [← hid]
              exact id_mem_allNodeIds tr hmem0
            have hres : tr.collectDeps (fuel + 1) nodeId acc
                = e0.dependencies.foldl (fun a dd => tr.collectDeps fuel dd a)
                    (acc ++ [nodeId]) := by
              simp [GenerationTrace.collectDeps, hmem, hfind]
            have hc1 : unvisitedCount tr (acc ++ [nodeId]) < fuel := by
              have := unvisitedCount_lt tr hn0 hmem
              omega
            have hposf : 0 < fuel := by omega
            rw [hres] at hx ⊢
            by_cases hxn : x = nodeId
            · have he0 : e = e0 := by
                rw [hxn, hfind] at he
                exact (Option.some.inj he).symm
              exact foldlCollect_mem_processed tr fuel hposf e0.dependencies
                (acc ++ [nodeId]) d (he0 ▸ hd)
            · have hxacc1 : x ∉ acc ++ [nodeId] := by
                simp only [List.mem_append, List.mem_singleton]
                rintro (h | h)
                · exact hxacc h
                · exact hxn h
              exact hfold e0.dependencies (acc ++ [nodeId]) hc1 x hx hxacc1 e he d hd

theorem collectDeps_sound (tr : GenerationTrace) :
    ∀ fuel (nodeId : String) (acc : List String) (x : String),
      x ∈ tr.collectDeps fuel nodeId acc →
      x ∈ acc ∨ DepReach tr nodeId x := by
  intro fuel
  induction fuel with
  | zero =>
      intro nodeId acc x hx
      left
      simpa [GenerationTrace.collectDeps] using hx
  | succ fuel ih =>
      intro nodeId acc x hx
      by_cases hmem : nodeId ∈ acc
      · left
        simpa [GenerationTrace.collectDeps, hmem] using hx
      · cases hfind : tr.findEntry? nodeId with
        | none =>
            have hx2 : x ∈ acc ++ [nodeId] := by
              simpa [GenerationTrace.collectDeps, hmem, hfind] using hx
            rcases List.mem_append.mp hx2 with h | h
            · left; exact h
            · right
              have hxeq : x = nodeId := by simpa using h
              rw [hxeq]
        | some e0 =>
            have hres : x ∈ e0.dependencies.foldl
                (fun a dd => tr.collectDeps fuel dd a) (acc ++ [nodeId]) := by
              simpa [GenerationTrace.collectDeps, hmem, hfind] using hx
            have hsound : ∀ (ds acc2 : List String) (y : String),
                y ∈ ds.foldl (fun a dd => tr.collectDeps fuel dd a) acc2 →
                y ∈ acc2 ∨ ∃ d ∈ ds, DepReach tr d y := by
              intro ds
              induction ds with
              | nil => intro acc2 y hy; left; simpa using hy
              | cons dd ds ihds =>
                  intro acc2 y hy
                  rw [List.foldl_cons] at hy
                  rcases ihds _ y hy with h | ⟨d2, hd2, hr⟩
                  · rcases ih dd acc2 y h with h2 | h2
                    · left; exact h2
                    · right; exact ⟨dd, List.mem_cons_self _ _, h2⟩
                  · right; exact ⟨d2, List.mem_cons_of_mem _ hd2, hr⟩
            rcases hsound e0.dependencies (acc ++ [nodeId]) x hres with h | ⟨d2, hd2, hr⟩
            · rcases List.mem_append.mp h with h2 | h2
              · left; exact h2
              · right
                have hxeq : x = nodeId := by simpa using h2
                rw [hxeq]
            · right
              obtain ⟨hmem0, hid⟩ := findEntry?_some_spec tr hfind
              exact Relation.ReflTransGen.head ⟨e0, hmem0, hid, hd2⟩ hr

theorem unvisitedCount_lt_fuelBound (tr : GenerationTrace) :
    unvisitedCount tr [] < tr.fuelBound := by
  have h := List.countP_le_length
    (p := fun x => decide (x ∉ ([] : List String))) (l := tr.allNodeIds)
  simp only [unvisitedCount, GenerationTrace.fuelBound]
  omega

/-- C10: `get_variable_dependencies` returns the empty set for an unbound
name; for a bound name the result always contains the bound entry's id
itself, every returned id is reachable from it along dependency edges, and
(on well-formed traces) every reachable id is returned. -/
theorem c10_variable_dependencies_closure (tr : GenerationTrace)
    (name : String) :
    (dictGet? tr.variable_assignments name = none →
        tr.getVariableDependencies name = []) ∧
    (∀ tid, dictGet? tr.variable_assignments name = some tid →
        tid ∈ tr.getVariableDependencies name ∧
        (∀ x ∈ tr.getVariableDependencies name, DepReach tr tid x) ∧
        (WellFormed tr → ∀ x, DepReach tr tid x →
            x ∈ tr.getVariableDependencies name)) := by
  constructor
  · intro h
    simp [GenerationTrace.getVariableDependencies, h]
  · intro tid htid
    have hdef : tr.getVariableDependencies name
        = tr.collectDeps tr.fuelBound tid [] := by
      simp [GenerationTrace.getVariableDependencies, htid]
    refine ⟨?_, ?_, ?_⟩
    · rw [hdef]
      exact collectDeps_mem_self tr _ tid []
        (by simp [GenerationTrace.fuelBound])
    · intro x hx
      rw [hdef] at hx
      rcases collectDeps_sound tr _ tid [] x hx with h | h
      · simp at h
      · exact h
    · intro hwf x hx
      rw [hdef]
      induction hx with
      | refl =>
          exact collectDeps_mem_self tr _ tid []
            (by simp [GenerationTrace.fuelBound])
      | tail hreach hedge ihr =>
          obtain ⟨e1, he1, hid1, hdep1⟩ := hedge
          have hfind : tr.findEntry? e1.id = some e1 :=
            findEntry?_of_wf tr hwf.1 he1
          rw [hid1] at hfind
          exact collectDeps_closed tr tr.fuelBound [] tid
            (unvisitedCount_lt_fuelBound tr) _ ihr (by simp) e1 hfind _ hdep1

/-- C10 witness: on the concrete two-entry chain, the name `b` (bound to
`t1`) yields a set containing `t1` itself and the reachable `t0`, and an
unbound name yields the empty set. -/
theorem c10_variable_dependencies_witness :
    "t1" ∈ c10trace.getVariableDependencies "b" ∧
    "t0" ∈ c10trace.getVariableDependencies "b" ∧
    c10trace.getVariableDependencies "zz" = [] := by
  have h := c10_variable_dependencies_closure c10trace "b"
  have hb := h.2 "t1" (by decide)
  refine ⟨hb.1, ?_, ?_⟩
  · exact hb.2.2 (by decide)
      "t0" (Relation.ReflTransGen.single (by decide))
  · exact (c10_variable_dependencies_closure c10trace "zz").1 (by decide)

theorem dictGetD_dictInsert_self {α : Type} (d : List (String × α))
    (k : String) (v : α) (dflt : α) :
    dictGetD (dictInsert d k v) k dflt = v := by
  simp [dictGetD, dictGet?_dictInsert_self]

theorem dictGetD_dictInsert_ne {α : Type} (d : List (String × α))
    (k k2 : String) (v : α) (dflt : α) (h : k2 ≠ k) :
    dictGetD (dictInsert d k v) k2 dflt = dictGetD d k2 dflt := by
  simp [dictGetD, dictGet?_dictInsert_ne d k k2 v h]

theorem revdeps_inner_mem :
    ∀ (ds : List String) (eid : String) (acc : List (String × List String))
      (a b : String),
      b ∈ dictGetD
          (ds.foldl
            (fun acc2 depId =>
              dictInsert acc2 depId (setAdd (dictGetD acc2 depId []) eid))
            acc) a []
      ↔ b ∈ dictGetD acc a [] ∨ (b = eid ∧ a ∈ ds) := by
  intro ds
  induction ds with
  | nil => simp
  | cons d ds ih =>
      intro eid acc a b
      rw [List.foldl_cons, ih]
      by_cases had : a = d
      · subst had
        rw [dictGetD_dictInsert_self, mem_setAdd]
        constructor
        · rintro ((h | rfl) | ⟨rfl, h⟩)
          · exact Or.inl h
          · exact Or.inr ⟨rfl, List.mem_cons_self _ _⟩
          · exact Or.inr ⟨rfl, List.mem_cons_self _ _⟩
        · rintro (h | ⟨rfl, _⟩)
          · exact Or.inl (Or.inl h)
          · exact Or.inl (Or.inr rfl)
      · rw [dictGetD_dictInsert_ne _ _ _ _ _ had]
        constructor
        · rintro (h | ⟨rfl, h⟩)
          · exact Or.inl h
          · exact Or.inr ⟨rfl, List.mem_cons_of_mem _ h⟩
        · rintro (h | ⟨rfl, h⟩)
          · exact Or.inl h
          · rcases List.mem_cons.mp h with rfl | h2
            · exact absurd rfl had
            · exact Or.inr ⟨rfl, h2⟩

theorem revdeps_mem (tr : GenerationTrace) (a b : String) :
    b ∈ dictGetD tr.getReverseDependencies a [] ↔ DepEdge tr b a := by
  have h : ∀ (es : List TraceEntry) (acc : List (String × List String)),
      b ∈ dictGetD
          (es.foldl
            (fun rev e =>
              e.dependencies.foldl
                (fun acc2 depId =>
                  dictInsert acc2 depId (setAdd (dictGetD acc2 depId []) e.id))
                rev)
            acc) a []
      ↔ b ∈ dictGetD acc a [] ∨ ∃ e ∈ es, e.id = b ∧ a ∈ e.dependencies := by
    intro es
    induction es with
    | nil => simp
    | cons e es ih =>
        intro acc
        rw [List.foldl_cons, ih, revdeps_inner_mem]
        constructor
        · rintro ((h | ⟨rfl, h⟩) | ⟨e2, he2, hid, hdep⟩)
          · exact Or.inl h
          · exact Or.inr ⟨e, List.mem_cons_self _ _, rfl, h⟩
          · exact Or.inr ⟨e2, List.mem_cons_of_mem _ he2, hid, hdep⟩
        · rintro (h | ⟨e2, he2, hid, hdep⟩)
          · exact Or.inl (Or.inl h)
          · rcases List.mem_cons.mp he2 with rfl | h2
            · exact Or.inl (Or.inr ⟨hid.symm, hdep⟩)
            · exact Or.inr ⟨e2, h2, hid, hdep⟩
  rw [GenerationTrace.getReverseDependencies, h tr.entries []]
  simp [dictGetD, dictGet?, DepEdge]

theorem setAdd_extends (l : List String) (x : String) :
    ∃ t, setAdd l x = l ++ t := by
  by_cases h : x ∈ l
  · exact ⟨[], by simp [setAdd, h]⟩
  · exact ⟨[x], by simp [setAdd, h]⟩

theorem foldl_mem_mono {β : Type} {f : List String → β → List String}
    (hf : ∀ a d, ∃ t, f a d = a ++ t) (ds : List β) (acc : List String)
    (y : String) (hy : y ∈ acc) : y ∈ ds.foldl f acc := by
  obtain ⟨t, ht⟩ := foldl_extends hf ds acc
  rw [ht]
  exact List.mem_append_left _ hy

theorem foldl_mem_of_step {β : Type} {f : List String → β → List String}
    (hext : ∀ a d, ∃ t, f a d = a ++ t) (target : β) (v : String)
    (hstep : ∀ acc, v ∈ f acc target) :
    ∀ (ds : List β) (acc : List String), target ∈ ds → v ∈ ds.foldl f acc := by
  intro ds
  induction ds with
  | nil => intro acc h; simp at h
  | cons d ds ih =>
      intro acc h
      rw [List.foldl_cons]
      rcases List.mem_cons.mp h with rfl | h2
      · exact foldl_mem_mono hext ds _ v (hstep acc)
      · exact ih _ h2

theorem collectDependents_extends (tr : GenerationTrace)
    (rev : List (String × List String)) :
    ∀ fuel (a : String) (acc : List String),
      ∃ t, tr.collectDependents rev fuel a acc = acc ++ t := by
  intro fuel
  induction fuel with
  | zero => exact fun a acc => ⟨[], by simp [GenerationTrace.collectDependents]⟩
  | succ fuel ih =>
      intro a acc
      have hinner : ∀ (d : String) (acc3 : List String) (p : String × String),
          ∃ t, (if p.2 = d then
              tr.collectDependents rev fuel d (setAdd acc3 p.1)
            else acc3) = acc3 ++ t := by
        intro d acc3 p
        by_cases hp : p.2 = d
        · obtain ⟨t0, ht0⟩ := setAdd_extends acc3 p.1
          obtain ⟨t1, ht1⟩ := ih d (setAdd acc3 p.1)
          exact ⟨t0 ++ t1, by rw [if_pos hp, ht1, ht0, List.append_assoc]⟩
        · exact ⟨[], by simp [hp]⟩
      have houter : ∀ (acc2 : List String) (d : String),
          ∃ t, tr.variable_assignments.foldl
              (fun a3 p => if p.2 = d then
                  tr.collectDependents rev fuel d (setAdd a3 p.1)
                else a3) acc2 = acc2 ++ t :=
        fun acc2 d => foldl_extends (fun a3 p => hinner d a3 p) _ acc2
      obtain ⟨t, ht⟩ := foldl_extends
        (f := fun a2 depId =>
          tr.variable_assignments.foldl
            (fun a3 p => if p.2 = depId then
                tr.collectDependents rev fuel depId (setAdd a3 p.1)
              else a3) a2)
        (fun a2 d => houter a2 d) (dictGetD rev a []) acc
      exact ⟨t, by simpa [GenerationTrace.collectDependents] using ht⟩

theorem collectDependents_mem_mono (tr : GenerationTrace)
    (rev : List (String × List String)) (fuel : Nat) (a : String)
    (acc : List String) (y : String) (hy : y ∈ acc) :
    y ∈ tr.collectDependents rev fuel a acc := by
  obtain ⟨t, ht⟩ := collectDependents_extends tr rev fuel a acc
  rw [ht]
  exact List.mem_append_left _ hy

theorem collectDependents_sound (tr : GenerationTrace) :
    ∀ fuel (a : String) (acc : List String) (v : String),
      v ∈ tr.collectDependents tr.getReverseDependencies fuel a acc →
      v ∈ acc ∨ ∃ b, (v, b) ∈ tr.variable_assignments ∧ BoundRevReach tr a b := by
  intro fuel
  induction fuel with
  | zero =>
      intro a acc v hv
      left
      simpa [GenerationTrace.collectDependents] using hv
  | succ fuel ih =>
      intro a acc v hv
      have hinner : ∀ (d : String), DepEdge tr d a →
          ∀ (ps : List (String × String)),
            (∀ p ∈ ps, p ∈ tr.variable_assignments) →
          ∀ (acc2 : List String) (v : String),
            v ∈ ps.foldl
              (fun a3 p => if p.2 = d then
                  tr.collectDependents tr.getReverseDependencies fuel d (setAdd a3 p.1)
                else a3) acc2 →
            v ∈ acc2 ∨
              ∃ b, (v, b) ∈ tr.variable_assignments ∧ BoundRevReach tr a b := by
        intro d hd ps
        induction ps with
        | nil =>
            intro _ acc2 v hv2
            left
            simpa using hv2
        | cons p ps ihp =>
            intro hps acc2 v hv2
            rw [List.foldl_cons] at hv2
            have hpmem : p ∈ tr.variable_assignments :=
              hps p (List.mem_cons_self _ _)
            have hpstail : ∀ q ∈ ps, q ∈ tr.variable_assignments :=
              fun q hq => hps q (List.mem_cons_of_mem _ hq)
            by_cases hpd : p.2 = d
            · rw [if_pos hpd] at hv2
              rcases ihp hpstail _ v hv2 with hv3 | hv3
              · rcases ih d (setAdd acc2 p.1) v hv3 with hv4 | ⟨b, hb, n, hchain⟩
                · rcases mem_setAdd.mp hv4 with hv5 | rfl
                  · left; exact hv5
                  · right
                    have hpe : p = (p.1, d) := by rw [← hpd]
                    refine ⟨d, ?_, 1, BoundRevReachN.step _ _ hd ⟨p, hpmem, hpd⟩⟩
                    rw [← hpe]
                    exact hpmem
                · right
                  exact ⟨b, hb, n + 1,
                    BoundRevReachN.head n a d b hd ⟨p, hpmem, hpd⟩ hchain⟩
              · right; exact hv3
            · rw [if_neg hpd] at hv2
              exact ihp hpstail acc2 v hv2
      have houter : ∀ (ds : List String), (∀ d ∈ ds, DepEdge tr d a) →
          ∀ (acc2 : List String) (v : String),
            v ∈ ds.foldl
              (fun a2 depId =>
                tr.variable_assignments.foldl
                  (fun a3 p => if p.2 = depId then
                      tr.collectDependents tr.getReverseDependencies fuel depId
                        (setAdd a3 p.1)
                    else a3) a2) acc2 →
            v ∈ acc2 ∨
              ∃ b, (v, b) ∈ tr.variable_assignments ∧ BoundRevReach tr a b := by
        intro ds
        induction ds with
        | nil =>
            intro _ acc2 v hv2
            left
            simpa using hv2
        | cons d ds ihds =>
            intro hds acc2 v hv2
            rw [List.foldl_cons] at hv2
            rcases ihds (fun q hq => hds q (List.mem_cons_of_mem _ hq)) _ v hv2 with
              hv3 | hv3
            · exact hinner d (hds d (List.mem_cons_self _ _))
                tr.variable_assignments (fun _ hp => hp) acc2 v hv3
            · right; exact hv3
      have hds0 : ∀ d ∈ dictGetD tr.getReverseDependencies a [], DepEdge tr d a :=
        fun d hd => (revdeps_mem tr a d).mp hd
      have hv2 : v ∈ (dictGetD tr.getReverseDependencies a []).foldl
          (fun a2 depId =>
            tr.variable_assignments.foldl
              (fun a3 p => if p.2 = depId then
                  tr.collectDependents tr.getReverseDependencies fuel depId
                    (setAdd a3 p.1)
                else a3) a2) acc := by
        simpa [GenerationTrace.collectDependents] using hv
      exact houter _ hds0 acc v hv2

theorem innerStep_extends (tr : GenerationTrace)
    (rev : List (String × List String)) (fuel : Nat) (d : String) :
    ∀ (acc3 : List String) (p : String × String),
      ∃ t, (if p.2 = d then
          tr.collectDependents rev fuel d (setAdd acc3 p.1)
        else acc3) = acc3 ++ t := by
  intro acc3 p
  by_cases hp : p.2 = d
  · obtain ⟨t0, ht0⟩ := setAdd_extends acc3 p.1
    obtain ⟨t1, ht1⟩ := collectDependents_extends tr rev fuel d (setAdd acc3 p.1)
    exact ⟨t0 ++ t1, by rw [if_pos hp, ht1, ht0, List.append_assoc]⟩
  · exact ⟨[], by simp [hp]⟩

theorem outerStep_extends (tr : GenerationTrace)
    (rev : List (String × List String)) (fuel : Nat) :
    ∀ (acc2 : List String) (d : String),
      ∃ t, tr.variable_assignments.foldl
          (fun a3 p => if p.2 = d then
              tr.collectDependents rev fuel d (setAdd a3 p.1)
            else a3) acc2 = acc2 ++ t :=
  fun acc2 d =>
    foldl_extends (fun a3 p => innerStep_extends tr rev fuel d a3 p) _ acc2

theorem collectDependents_body (tr : GenerationTrace)
    (rev : List (String × List String)) (fuel : Nat) (a : String)
    (acc : List String) :
    tr.collectDependents rev (fuel + 1) a acc
      = (dictGetD rev a []).foldl
          (fun a3 depId =>
            tr.variable_assignments.foldl
              (fun a4 p => if p.2 = depId then
                  tr.collectDependents rev fuel depId (setAdd a4 p.1)
                else a4) a3) acc := rfl

theorem collectDependents_complete (tr : GenerationTrace) :
    ∀ (n : Nat) (a b v : String), BoundRevReachN tr n a b →
      (v, b) ∈ tr.variable_assignments →
      ∀ fuel, n ≤ fuel → ∀ acc,
        v ∈ tr.collectDependents tr.getReverseDependencies fuel a acc := by
  intro n a b v hchain
  induction hchain with
  | step a2 b2 hedge hbound =>
      intro hpair fuel hnf acc
      cases fuel with
      | zero => omega
      | succ f =>
          rw [collectDependents_body]
          refine foldl_mem_of_step (outerStep_extends tr _ f) b2 v ?_ _ acc
            ((revdeps_mem tr a2 b2).mpr hedge)
          intro acc2
          refine foldl_mem_of_step (innerStep_extends tr _ f b2) (v, b2) v ?_ _
            acc2 hpair
          intro acc3
          rw [if_pos rfl]
          exact collectDependents_mem_mono tr _ f b2 _ v
            (mem_setAdd.mpr (Or.inr rfl))
  | head n2 a2 m b2 hedge hbound hchain2 ih =>
      intro hpair fuel hnf acc
      cases fuel with
      | zero => omega
      | succ f =>
          obtain ⟨pm, hpmmem, hpm2⟩ := hbound
          rw [collectDependents_body]
          refine foldl_mem_of_step (outerStep_extends tr _ f) m v ?_ _ acc
            ((revdeps_mem tr a2 m).mpr hedge)
          intro acc2
          refine foldl_mem_of_step (innerStep_extends tr _ f m) pm v ?_ _
            acc2 hpmmem
          intro acc3
          rw [if_pos hpm2]
          exact ih hpair f (by omega) (setAdd acc3 pm.1)

theorem entry_id_idx_inj (tr : GenerationTrace)
    (hnodup : (tr.entries.map (fun e => e.id)).Nodup) (i j : Nat)
    (hi : i < tr.entries.length) (hj : j < tr.entries.length)
    (hid : (tr.entries.get ⟨i, hi⟩).id = (tr.entries.get ⟨j, hj⟩).id) :
    i = j := by
  have hi2 : i < (tr.entries.map (fun e => e.id)).length := by simpa using hi
  have hj2 : j < (tr.entries.map (fun e => e.id)).length := by simpa using hj
  have hmap : (tr.entries.map (fun e => e.id)).get ⟨i, hi2⟩
      = (tr.entries.map (fun e => e.id)).get ⟨j, hj2⟩ := by
    simpa [List.get_eq_getElem] using hid
  have := (hnodup.get_inj_iff).mp hmap
  simpa using congrArg Fin.val this

theorem depEdge_idx_lt (tr : GenerationTrace)
    (hnodup : (tr.entries.map (fun e => e.id)).Nodup) (hwo : WellOrdered tr)
    {m a : String} (h : DepEdge tr m a) (i : Nat)
    (hi : i < tr.entries.length) (ha : (tr.entries.get ⟨i, hi⟩).id = a) :
    ∃ j, ∃ hj : j < tr.entries.length,
      i < j ∧ (tr.entries.get ⟨j, hj⟩).id = m := by
  obtain ⟨e, he, heid, hadep⟩ := h
  obtain ⟨⟨j, hj⟩, hee⟩ := List.mem_iff_get.mp he
  have hdep2 : a ∈ (tr.entries.get ⟨j, hj⟩).dependencies := by
    rw [hee]
    exact hadep
  have htake := hwo j hj a hdep2
  obtain ⟨e2, he2, heid2⟩ := List.mem_map.mp htake
  obtain ⟨⟨k, hk0⟩, hke⟩ := List.mem_iff_get.mp he2
  have hkj : k < j := by
    have := hk0
    simp [List.length_take] at this
    omega
  have hk : k < tr.entries.length := by omega
  have hkid : (tr.entries.get ⟨k, hk⟩).id = a := by
    have hg : (tr.entries.take j).get ⟨k, hk0⟩ = tr.entries.get ⟨k, hk⟩ := by
      simp [List.get_eq_getElem, List.getElem_take]
    rw [hg] at hke
    rw [hke]
    exact heid2
  have hki : k = i := entry_id_idx_inj tr hnodup k i hk hi (by rw [hkid, ha])
  refine ⟨j, hj, by omega, ?_⟩
  rw [hee]
  exact heid

theorem brrN_idx_bound (tr : GenerationTrace)
    (hnodup : (tr.entries.map (fun e => e.id)).Nodup) (hwo : WellOrdered tr) :
    ∀ (n : Nat) (a b : String), BoundRevReachN tr n a b →
      ∀ (i : Nat) (hi : i < tr.entries.length),
        (tr.entries.get ⟨i, hi⟩).id = a → i + n < tr.entries.length := by
  intro n a b hchain
  induction hchain with
  | step a2 b2 hedge hbound =>
      intro i hi ha
      obtain ⟨j, hj, hij, _⟩ := depEdge_idx_lt tr hnodup hwo hedge i hi ha
      omega
  | head n2 a2 m b2 hedge hbound hchain2 ih =>
      intro i hi ha
      obtain ⟨j, hj, hij, hjm⟩ := depEdge_idx_lt tr hnodup hwo hedge i hi ha
      have := ih j hj hjm
      omega

theorem brrN_len_bound (tr : GenerationTrace)
    (hnodup : (tr.entries.map (fun e => e.id)).Nodup) (hwo : WellOrdered tr)
    (n : Nat) (a b : String) (hchain : BoundRevReachN tr n a b) :
    n ≤ tr.entries.length := by
  induction hchain with
  | step a2 b2 hedge hbound =>
      obtain ⟨e, he, _, _⟩ := hedge
      have : 0 < tr.entries.length := List.length_pos.mpr (List.ne_nil_of_mem he)
      omega
  | head n2 a2 m2 b2 hedge hbound hchain2 ih =>
      obtain ⟨e, he, heid, _⟩ := hedge
      obtain ⟨⟨j, hj⟩, hee⟩ := List.mem_iff_get.mp he
      have hb := brrN_idx_bound tr hnodup hwo n2 m2 b2 hchain2 j hj
        (by rw [hee]; exact heid)
      omega

theorem entries_le_allNodeIds (tr : GenerationTrace)
    (hnodup : (tr.entries.map (fun e => e.id)).Nodup) :
    tr.entries.length ≤ tr.allNodeIds.length := by
  have hsub : (tr.entries.map (fun e => e.id)) ⊆ tr.allNodeIds := by
    intro x hx
    obtain ⟨e, he, rfl⟩ := List.mem_map.mp hx
    exact id_mem_allNodeIds tr he
  have hlen := (hnodup.subperm hsub).length_le
  simpa using hlen

/-- C4 counterexample: on the concrete trace where `x ↦ t0`, `t1` (which
depends on `t0`) is unbound, and `z ↦ t2` (which depends on `t1`),
`get_dependent_variables "x"` returns the empty set even though `z` is
bound to `t2`, an entry in the transitive closure of the reverse dependency
graph of `t0` — the traversal does not continue through the unbound
intermediate `t1`. -/
theorem c4_counterexample :
    c4trace.getDependentVariables "x" = [] ∧
    dictGet? c4trace.variable_assignments "x" = some "t0" ∧
    "t1" ∈ dictGetD c4trace.getReverseDependencies "t0" [] ∧
    "t2" ∈ dictGetD c4trace.getReverseDependencies "t1" [] ∧
    dictGet? c4trace.variable_assignments "z" = some "t2" ∧
    "z" ∉ c4trace.getDependentVariables "x" := by decide

/-- C4 (amended): for a bound name, `get_dependent_variables` returns
exactly the variables bound to entries reachable from the start entry
through chains of reverse-dependency edges every one of whose nodes (the
start excluded) carries a variable binding; an id with no bound name
contributes no output name and its dependents are not traversed, so
variables reachable only through an unbound intermediate id are excluded.
For an unbound name it returns the empty set. -/
theorem c4_dependent_variables_bound_chains (tr : GenerationTrace)
    (name : String) (hwf : WellFormed tr) (hwo : WellOrdered tr) :
    (dictGet? tr.variable_assignments name = none →
        tr.getDependentVariables name = []) ∧
    (∀ tid, dictGet? tr.variable_assignments name = some tid →
        ∀ v, v ∈ tr.getDependentVariables name ↔
          ∃ b, (v, b) ∈ tr.variable_assignments ∧ BoundRevReach tr tid b) := by
  constructor
  · intro h
    simp [GenerationTrace.getDependentVariables, h]
  · intro tid htid v
    have hdef : tr.getDependentVariables name
        = tr.collectDependents tr.getReverseDependencies tr.fuelBound tid [] := by
      simp [GenerationTrace.getDependentVariables, htid]
    rw [hdef]
    constructor
    · intro hv
      rcases collectDependents_sound tr _ tid [] v hv with h | h
      · simp at h
      · exact h
    · rintro ⟨b, hb, n, hchain⟩
      have hnb := brrN_len_bound tr hwf.1 hwo n tid b hchain
      have hlen := entries_le_allNodeIds tr hwf.1
      refine collectDependents_complete tr n tid b v hchain hb tr.fuelBound ?_ []
      simp only [GenerationTrace.fuelBound]
      omega

/-- C4 witness: on the fully bound variant of the counterexample trace, the
amended theorem yields `z` (two bound reverse steps away) and `y` (one
step) as the dependent variables of `x`. -/
theorem c4_dependent_variables_witness :
    "z" ∈ c4traceAllBound.getDependentVariables "x" ∧
    "y" ∈ c4traceAllBound.getDependentVariables "x" := by
  have h := (c4_dependent_variables_bound_chains c4traceAllBound "x"
    (by decide) (by decide)).2 "t0" (by decide)
  constructor
  · exact (h "z").mpr ⟨"t2", by decide,
      2, BoundRevReachN.head 1 "t0" "t1" "t2" (by decide) (by decide)
        (BoundRevReachN.step "t1" "t2" (by decide) (by decide))⟩
  · exact (h "y").mpr ⟨"t1", by decide,
      1, BoundRevReachN.step "t0" "t1" (by decide) (by decide)⟩

theorem mem_stableInsert {α : Type} (key : α → Nat) (x z : α) :
    ∀ l : List α, z ∈ stableInsert key x l ↔ z = x ∨ z ∈ l := by
  intro l
  induction l with
  | nil => simp [stableInsert]
  | cons y ys ih =>
      by_cases h : key y ≤ key x
      · rw [stableInsert, if_pos h, List.mem_cons, ih, List.mem_cons]
        tauto
      · rw [stableInsert, if_neg h]
        simp [List.mem_cons]

theorem stableInsert_perm {α : Type} (key : α → Nat) (x : α) :
    ∀ l : List α, (stableInsert key x l).Perm (x :: l) := by
  intro l
  induction l with
  | nil => simp [stableInsert]
  | cons y ys ih =>
      by_cases h : key y ≤ key x
      · rw [stableInsert, if_pos h]
        exact (ih.cons y).trans (List.Perm.swap x y ys)
      · rw [stableInsert, if_neg h]

theorem stableInsert_sorted {α : Type} (key : α → Nat) (x : α) :
    ∀ l : List α, l.Pairwise (fun a b => key a ≤ key b) →
      (stableInsert key x l).Pairwise (fun a b => key a ≤ key b) := by
  intro l
  induction l with
  | nil => simp [stableInsert]
  | cons y ys ih =>
      intro hs
      rw [List.pairwise_cons] at hs
      by_cases h : key y ≤ key x
      · rw [stableInsert, if_pos h]
        rw [List.pairwise_cons]
        constructor
        · intro z hz
          rcases (mem_stableInsert key x z ys).mp hz with rfl | hz2
          · exact h
          · exact hs.1 z hz2
        · exact ih hs.2
      · rw [stableInsert, if_neg h]
        rw [List.pairwise_cons]
        constructor
        · intro z hz
          rcases List.mem_cons.mp hz with rfl | hz2
          · omega
          · have h1 : key x ≤ key y := by omega
            exact h1.trans (hs.1 z hz2)
        · exact List.pairwise_cons.mpr hs

theorem stableSortByKey_perm {α : Type} (key : α → Nat) :
    ∀ (l acc : List α),
      (l.foldl (fun acc x => stableInsert key x acc) acc).Perm (acc ++ l) := by
  intro l
  induction l with
  | nil => simp
  | cons x l ih =>
      intro acc
      rw [List.foldl_cons]
      refine (ih (stableInsert key x acc)).trans ?_
      have h1 : (stableInsert key x acc ++ l).Perm ((x :: acc) ++ l) :=
        (stableInsert_perm key x acc).append_right l
      refine h1.trans ?_
      exact List.perm_middle.symm.trans (List.Perm.refl _) |>.symm |>.symm

theorem stableSortByKey_sorted {α : Type} (key : α → Nat) :
    ∀ (l acc : List α), acc.Pairwise (fun a b => key a ≤ key b) →
      (l.foldl (fun acc x => stableInsert key x acc) acc).Pairwise
        (fun a b => key a ≤ key b) := by
  intro l
  induction l with
  | nil => exact fun acc h => h
  | cons x l ih =>
      intro acc hacc
      rw [List.foldl_cons]
      exact ih _ (stableInsert_sorted key x acc hacc)

/-- C5 counterexample: on the concrete trace `c5trace` (with the modelled
first-insertion iteration order of the dependency sets, one admissible
CPython set order), Phase A's processing order is not ascending in
spec-depth: the shared visited set makes `get_depth(t4)` return 3 although
its spec-depth is 4, so `t4` is processed before `t5` (spec-depth 3). -/
theorem c5_counterexample : ¬ phaseAProcessedAscending c5trace := by decide

/-- C5 (amended): Phase A processes the entries in ascending order of the
key the code actually computes — `get_depth` with its visited set shared
across the sibling recursion — and that order is a permutation of the
entries; because of the shared visited set this key can undercount the
spec's "1 + max depth of dependencies", so the processing order is not in
general ascending in spec-depth. -/
theorem c5_phase_a_sorted_by_computed_key (tr : GenerationTrace) :
    ((sortByDependencyDepth tr.getDependencyGraph tr.fuelBound tr.entries).Pairwise
      (fun e1 e2 => (getDepthAux tr.getDependencyGraph tr.fuelBound e1.id []).1
        ≤ (getDepthAux tr.getDependencyGraph tr.fuelBound e2.id []).1)) ∧
    (sortByDependencyDepth tr.getDependencyGraph tr.fuelBound tr.entries).Perm
      tr.entries := by
  constructor
  · exact stableSortByKey_sorted _ tr.entries [] (by simp)
  · have h := stableSortByKey_perm
      (fun e => (getDepthAux tr.getDependencyGraph tr.fuelBound e.id []).1)
      tr.entries []
    simpa [sortByDependencyDepth, stableSortByKey] using h

theorem hext_refl (h : Heap) : HExt h h :=
  ⟨le_rfl, fun _ _ => rfl⟩

theorem hext_trans {h1 h2 h3 : Heap} (a : HExt h1 h2) (b : HExt h2 h3) :
    HExt h1 h3 :=
  ⟨a.1.trans b.1, fun i hi => (b.2 i (lt_of_lt_of_le hi a.1)).trans (a.2 i hi)⟩

theorem heapGet_eq_of_hext {h h2 : Heap} (he : HExt h h2) {r : Nat}
    (hr : r < heapLen h) : heapGet h2 r = heapGet h r := by
  simp [heapGet, he.2 r hr]

theorem hext_createModifiedTrace (h : Heap) (r : Nat) (entryId : String)
    (v : Val) :
    HExt h (createModifiedTrace h r entryId v).1 ∧
    (createModifiedTrace h r entryId v).2
      < heapLen (createModifiedTrace h r entryId v).1 := by
  refine ⟨⟨?_, ?_⟩, ?_⟩
  · simp [createModifiedTrace, heapLen]
  · intro i hi
    simp only [createModifiedTrace]
    rw [List.getElem?_set_ne (by simp [heapLen] at hi ⊢; omega)]
    exact List.getElem?_append_left (by simpa [heapLen] using hi)
  · simp [createModifiedTrace, heapLen]

theorem hext_removeEntry (h : Heap) (r : Nat) (entryId : String) :
    HExt h (removeEntry h r entryId).1 ∧
    (removeEntry h r entryId).2 < heapLen (removeEntry h r entryId).1 := by
  refine ⟨⟨?_, ?_⟩, ?_⟩
  · simp [removeEntry, heapLen]
  · intro i hi
    simp only [removeEntry]
    rw [List.getElem?_set_ne (by simp [heapLen] at hi ⊢; omega)]
    exact List.getElem?_append_left (by simpa [heapLen] using hi)
  · simp [removeEntry, heapLen]

theorem shrinkIndivLoop_spec {ε : Type} (pred : List (String × Val) → Except ε Bool)
    (r : Nat) :
    ∀ (es : List TraceEntry) (h : Heap),
      HExt h (shrinkIndivLoop pred r h es).1 ∧
      ∀ nr, (shrinkIndivLoop pred r h es).2 = some nr →
        nr < heapLen (shrinkIndivLoop pred r h es).1 ∧
        testTrace (heapGet (shrinkIndivLoop pred r h es).1 nr) pred = true := by
  intro es
  induction es with
  | nil =>
      intro h
      refine ⟨hext_refl h, ?_⟩
      intro nr hnr
      simp [shrinkIndivLoop] at hnr
  | cons e rest ih =>
      intro h
      by_cases hs : tryShrinkValue e.value e.strategy ≠ e.value
      · by_cases ht : testTrace
            (heapGet (createModifiedTrace h r e.id
              (tryShrinkValue e.value e.strategy)).1
              (createModifiedTrace h r e.id
                (tryShrinkValue e.value e.strategy)).2) pred = true
        · have hres : shrinkIndivLoop pred r h (e :: rest)
              = ((createModifiedTrace h r e.id
                  (tryShrinkValue e.value e.strategy)).1,
                 some (createModifiedTrace h r e.id
                  (tryShrinkValue e.value e.strategy)).2) := by
            simp [shrinkIndivLoop, hs, ht]
          rw [hres]
          obtain ⟨hext, hlt⟩ := hext_createModifiedTrace h r e.id
            (tryShrinkValue e.value e.strategy)
          refine ⟨hext, ?_⟩
          intro nr hnr
          cases hnr
          exact ⟨hlt, ht⟩
        · have hres : shrinkIndivLoop pred r h (e :: rest)
              = shrinkIndivLoop pred r (createModifiedTrace h r e.id
                  (tryShrinkValue e.value e.strategy)).1 rest := by
            simp [shrinkIndivLoop, hs, ht]
          rw [hres]
          obtain ⟨hext, _⟩ := hext_createModifiedTrace h r e.id
            (tryShrinkValue e.value e.strategy)
          obtain ⟨hext2, hacc⟩ := ih (createModifiedTrace h r e.id
            (tryShrinkValue e.value e.strategy)).1
          exact ⟨hext_trans hext hext2, hacc⟩
      · have hres : shrinkIndivLoop pred r h (e :: rest)
            = shrinkIndivLoop pred r h rest := by
          simp [shrinkIndivLoop, hs]
        rw [hres]
        exact ih h

theorem shrinkComponentLoop_spec {ε : Type}
    (pred : List (String × Val) → Except ε Bool) (r : Nat)
    (tr : GenerationTrace) :
    ∀ (roots : List String) (h : Heap),
      HExt h (shrinkComponentLoop pred r tr h roots).1 ∧
      ∀ nr, (shrinkComponentLoop pred r tr h roots).2 = some nr →
        nr < heapLen (shrinkComponentLoop pred r tr h roots).1 ∧
        testTrace (heapGet (shrinkComponentLoop pred r tr h roots).1 nr) pred
          = true := by
  intro roots
  induction roots with
  | nil =>
      intro h
      refine ⟨hext_refl h, ?_⟩
      intro nr hnr
      simp [shrinkComponentLoop] at hnr
  | cons rootId rest ih =>
      intro h
      cases hfind : tr.findEntry? rootId with
      | none =>
          have hres : shrinkComponentLoop pred r tr h (rootId :: rest)
              = shrinkComponentLoop pred r tr h rest := by
            simp [shrinkComponentLoop, hfind]
          rw [hres]
          exact ih h
      | some e =>
          by_cases hs : tryShrinkValue e.value e.strategy ≠ e.value
          · by_cases ht : testTrace
                (heapGet (createModifiedTrace h r rootId
                  (tryShrinkValue e.value e.strategy)).1
                  (createModifiedTrace h r rootId
                    (tryShrinkValue e.value e.strategy)).2) pred = true
            · have hres : shrinkComponentLoop pred r tr h (rootId :: rest)
                  = ((createModifiedTrace h r rootId
                      (tryShrinkValue e.value e.strategy)).1,
                     some (createModifiedTrace h r rootId
                      (tryShrinkValue e.value e.strategy)).2) := by
                simp [shrinkComponentLoop, hfind, hs, ht]
              rw [hres]
              obtain ⟨hext, hlt⟩ := hext_createModifiedTrace h r rootId
                (tryShrinkValue e.value e.strategy)
              refine ⟨hext, ?_⟩
              intro nr hnr
              cases hnr
              exact ⟨hlt, ht⟩
            · have hres : shrinkComponentLoop pred r tr h (rootId :: rest)
                  = shrinkComponentLoop pred r tr (createModifiedTrace h r rootId
                      (tryShrinkValue e.value e.strategy)).1 rest := by
                simp [shrinkComponentLoop, hfind, hs, ht]
              rw [hres]
              obtain ⟨hext, _⟩ := hext_createModifiedTrace h r rootId
                (tryShrinkValue e.value e.strategy)
              obtain ⟨hext2, hacc⟩ := ih (createModifiedTrace h r rootId
                (tryShrinkValue e.value e.strategy)).1
              exact ⟨hext_trans hext hext2, hacc⟩
          · have hres : shrinkComponentLoop pred r tr h (rootId :: rest)
                = shrinkComponentLoop pred r tr h rest := by
              simp [shrinkComponentLoop, hfind, hs]
            rw [hres]
            exact ih h

theorem shrinkComponent_spec {ε : Type} (graph : List (String × List String))
    (h : Heap) (r : Nat) (component : List String)
    (pred : List (String × Val) → Except ε Bool) :
    HExt h (shrinkComponent graph h r component pred).1 ∧
    ∀ nr, (shrinkComponent graph h r component pred).2 = some nr →
      nr < heapLen (shrinkComponent graph h r component pred).1 ∧
      testTrace (heapGet (shrinkComponent graph h r component pred).1 nr) pred
        = true := by
  by_cases hroot : (component.filter
      (fun tid => dictGetD graph tid [] = [])).isEmpty
  · have hres : shrinkComponent graph h r component pred = (h, none) := by
      simp [shrinkComponent, hroot]
    rw [hres]
    refine ⟨hext_refl h, ?_⟩
    intro nr hnr
    simp at hnr
  · have hres : shrinkComponent graph h r component pred
        = shrinkComponentLoop pred r (heapGet h r) h
          (component.filter (fun tid => dictGetD graph tid [] = [])) := by
      simp [shrinkComponent, hroot]
    rw [hres]
    exact shrinkComponentLoop_spec pred r (heapGet h r) _ h

theorem shrinkChainsLoop_spec {ε : Type} (graph : List (String × List String))
    (pred : List (String × Val) → Except ε Bool) (r : Nat) :
    ∀ (comps : List (List String)) (h : Heap),
      HExt h (shrinkChainsLoop graph pred r h comps).1 ∧
      ∀ nr, (shrinkChainsLoop graph pred r h comps).2 = some nr →
        nr < heapLen (shrinkChainsLoop graph pred r h comps).1 ∧
        testTrace (heapGet (shrinkChainsLoop graph pred r h comps).1 nr) pred
          = true := by
  intro comps
  induction comps with
  | nil =>
      intro h
      refine ⟨hext_refl h, ?_⟩
      intro nr hnr
      simp [shrinkChainsLoop] at hnr
  | cons comp rest ih =>
      intro h
      by_cases hlen : comp.length > 1
      · obtain ⟨hext1, hacc1⟩ := shrinkComponent_spec graph h r comp pred
        cases hcomp : (shrinkComponent graph h r comp pred).2 with
        | some nr =>
            have hres : shrinkChainsLoop graph pred r h (comp :: rest)
                = ((shrinkComponent graph h r comp pred).1, some nr) := by
              simp [shrinkChainsLoop, hlen, hcomp]
            rw [hres]
            refine ⟨hext1, ?_⟩
            intro nr2 hnr2
            cases hnr2
            exact hacc1 nr hcomp
        | none =>
            have hres : shrinkChainsLoop graph pred r h (comp :: rest)
                = shrinkChainsLoop graph pred r
                    (shrinkComponent graph h r comp pred).1 rest := by
              simp [shrinkChainsLoop, hlen, hcomp]
            rw [hres]
            obtain ⟨hext2, hacc2⟩ := ih (shrinkComponent graph h r comp pred).1
            exact ⟨hext_trans hext1 hext2, hacc2⟩
      · have hres : shrinkChainsLoop graph pred r h (comp :: rest)
            = shrinkChainsLoop graph pred r h rest := by
          simp [shrinkChainsLoop, hlen]
        rw [hres]
        exact ih h

theorem shrinkOptionalLoop_spec {ε : Type}
    (revDeps : List (String × List String))
    (pred : List (String × Val) → Except ε Bool) (r : Nat) :
    ∀ (es : List TraceEntry) (h : Heap),
      HExt h (shrinkOptionalLoop revDeps pred r h es).1 ∧
      ∀ nr, (shrinkOptionalLoop revDeps pred r h es).2 = some nr →
        nr < heapLen (shrinkOptionalLoop revDeps pred r h es).1 ∧
        testTrace (heapGet (shrinkOptionalLoop revDeps pred r h es).1 nr) pred
          = true := by
  intro es
  induction es with
  | nil =>
      intro h
      refine ⟨hext_refl h, ?_⟩
      intro nr hnr
      simp [shrinkOptionalLoop] at hnr
  | cons e rest ih =>
      intro h
      by_cases hcond : (dictGetD revDeps e.id []).length > 1 ∧
          e.dependencies.length ≤ 1
      · by_cases ht : testTrace
            (heapGet (removeEntry h r e.id).1 (removeEntry h r e.id).2) pred
            = true
        · have hres : shrinkOptionalLoop revDeps pred r h (e :: rest)
              = ((removeEntry h r e.id).1, some (removeEntry h r e.id).2) := by
            simp [shrinkOptionalLoop, hcond, ht]
          rw [hres]
          obtain ⟨hext, hlt⟩ := hext_removeEntry h r e.id
          refine ⟨hext, ?_⟩
          intro nr hnr
          cases hnr
          exact ⟨hlt, ht⟩
        · have hres : shrinkOptionalLoop revDeps pred r h (e :: rest)
              = shrinkOptionalLoop revDeps pred r (removeEntry h r e.id).1
                  rest := by
            simp [shrinkOptionalLoop, hcond, ht]
          rw [hres]
          obtain ⟨hext, _⟩ := hext_removeEntry h r e.id
          obtain ⟨hext2, hacc⟩ := ih (removeEntry h r e.id).1
          exact ⟨hext_trans hext hext2, hacc⟩
      · have hres : shrinkOptionalLoop revDeps pred r h (e :: rest)
            = shrinkOptionalLoop revDeps pred r h rest := by
          simp [shrinkOptionalLoop, hcond]
        rw [hres]
        exact ih h

theorem shrinkIndividualValues_spec {ε : Type}
    (graph : List (String × List String)) (fuel : Nat) (h : Heap) (r : Nat)
    (pred : List (String × Val) → Except ε Bool) :
    HExt h (shrinkIndividualValues graph fuel h r pred).1 ∧
    ∀ nr, (shrinkIndividualValues graph fuel h r pred).2 = some nr →
      nr < heapLen (shrinkIndividualValues graph fuel h r pred).1 ∧
      testTrace (heapGet (shrinkIndividualValues graph fuel h r pred).1 nr)
        pred = true :=
  shrinkIndivLoop_spec pred r _ h

theorem shrinkDependencyChains_spec {ε : Type}
    (graph : List (String × List String)) (h : Heap) (r : Nat)
    (pred : List (String × Val) → Except ε Bool) :
    HExt h (shrinkDependencyChains graph h r pred).1 ∧
    ∀ nr, (shrinkDependencyChains graph h r pred).2 = some nr →
      nr < heapLen (shrinkDependencyChains graph h r pred).1 ∧
      testTrace (heapGet (shrinkDependencyChains graph h r pred).1 nr) pred
        = true :=
  shrinkChainsLoop_spec graph pred r _ h

theorem shrinkOptionalDependencies_spec {ε : Type}
    (revDeps : List (String × List String)) (h : Heap) (r : Nat)
    (pred : List (String × Val) → Except ε Bool) :
    HExt h (shrinkOptionalDependencies revDeps h r pred).1 ∧
    ∀ nr, (shrinkOptionalDependencies revDeps h r pred).2 = some nr →
      nr < heapLen (shrinkOptionalDependencies revDeps h r pred).1 ∧
      testTrace (heapGet (shrinkOptionalDependencies revDeps h r pred).1 nr)
        pred = true :=
  shrinkOptionalLoop_spec revDeps pred r _ h

theorem phase_step {ε : Type} {pred : List (String × Val) → Except ε Bool}
    {h1 h2 : Heap} {o : Option Nat} {r0 : Nat} (hext : HExt h1 h2)
    (hacc : ∀ nr, o = some nr →
      nr < heapLen h2 ∧ testTrace (heapGet h2 nr) pred = true)
    (hr0 : r0 < heapLen h1) (ht0 : testTrace (heapGet h1 r0) pred = true) :
    o.getD r0 < heapLen h2 ∧ testTrace (heapGet h2 (o.getD r0)) pred = true := by
  cases o with
  | none =>
      refine ⟨lt_of_lt_of_le hr0 hext.1, ?_⟩
      rw [Option.getD_none, heapGet_eq_of_hext hext hr0]
      exact ht0
  | some nr =>
      rw [Option.getD_some]
      exact hacc nr rfl

theorem shrinkFailingExample_spec {ε : Type} (h : Heap) (r : Nat)
    (pred : List (String × Val) → Except ε Bool) (hr : r < heapLen h)
    (hfail : testTrace (heapGet h r) pred = true) :
    HExt h (shrinkFailingExample h r pred).1 ∧
    (shrinkFailingExample h r pred).2.2 < heapLen (shrinkFailingExample h r pred).1 ∧
    testTrace (heapGet (shrinkFailingExample h r pred).1
      (shrinkFailingExample h r pred).2.2) pred = true ∧
    (shrinkFailingExample h r pred).2.1
      = reconstructValue (heapGet (shrinkFailingExample h r pred).1
          (shrinkFailingExample h r pred).2.2) := by
  simp only [shrinkFailingExample]
  set s1 := shrinkIndividualValues (heapGet h r).getDependencyGraph
    (heapGet h r).fuelBound h r pred with hs1
  set r1 := s1.2.getD r with hr1def
  set s2 := shrinkDependencyChains (heapGet h r).getDependencyGraph s1.1 r1
    pred with hs2
  set r2 := s2.2.getD r1 with hr2def
  set s3 := shrinkOptionalDependencies (heapGet h r).getReverseDependencies
    s2.1 r2 pred with hs3
  set r3 := s3.2.getD r2 with hr3def
  have p1 := shrinkIndividualValues_spec (heapGet h r).getDependencyGraph
    (heapGet h r).fuelBound h r pred
  rw [← hs1] at p1
  have st1 := phase_step p1.1 p1.2 hr hfail
  rw [← hr1def] at st1
  have p2 := shrinkDependencyChains_spec (heapGet h r).getDependencyGraph
    s1.1 r1 pred
  rw [← hs2] at p2
  have st2 := phase_step p2.1 p2.2 st1.1 st1.2
  rw [← hr2def] at st2
  have p3 := shrinkOptionalDependencies_spec
    (heapGet h r).getReverseDependencies s2.1 r2 pred
  rw [← hs3] at p3
  have st3 := phase_step p3.1 p3.2 st2.1 st2.2
  rw [← hr3def] at st3
  exact ⟨hext_trans (hext_trans p1.1 p2.1) p3.1, st3.1, st3.2, trivial⟩

theorem shrinkFailingExample_hext {ε : Type} (h : Heap) (r : Nat)
    (pred : List (String × Val) → Except ε Bool) :
    HExt h (shrinkFailingExample h r pred).1 := by
  simp only [shrinkFailingExample]
  set s1 := shrinkIndividualValues (heapGet h r).getDependencyGraph
    (heapGet h r).fuelBound h r pred with hs1
  set r1 := s1.2.getD r with hr1def
  set s2 := shrinkDependencyChains (heapGet h r).getDependencyGraph s1.1 r1
    pred with hs2
  set r2 := s2.2.getD r1 with hr2def
  set s3 := shrinkOptionalDependencies (heapGet h r).getReverseDependencies
    s2.1 r2 pred with hs3
  have p1 := shrinkIndividualValues_spec (heapGet h r).getDependencyGraph
    (heapGet h r).fuelBound h r pred
  rw [← hs1] at p1
  have p2 := shrinkDependencyChains_spec (heapGet h r).getDependencyGraph
    s1.1 r1 pred
  rw [← hs2] at p2
  have p3 := shrinkOptionalDependencies_spec
    (heapGet h r).getReverseDependencies s2.1 r2 pred
  rw [← hs3] at p3
  exact hext_trans (hext_trans p1.1 p2.1) p3.1

/-- C1: if the input trace's reconstructed value makes the predicate raise,
`shrink_failing_example` returns a value/trace pair whose trace's
reconstructed value still makes the predicate raise, and the returned value
is exactly that reconstruction. -/
theorem c1_shrink_preserves_failure {ε : Type} (tr : GenerationTrace)
    (pred : List (String × Val) → Except ε Bool)
    (hfail : testTrace tr pred = true) :
    testTrace (shrinkWithDataflow tr pred).2 pred = true ∧
    (shrinkWithDataflow tr pred).1
      = reconstructValue (shrinkWithDataflow tr pred).2 := by
  have h0 : heapGet [tr] 0 = tr := by simp [heapGet]
  have hs := shrinkFailingExample_spec [tr] 0 pred
    (by simp [heapLen]) (by rw [h0]; exact hfail)
  simp only [shrinkWithDataflow]
  exact ⟨hs.2.2.1, hs.2.2.2⟩

/-- C1 witness: the concrete failing example `t0 = 80`, `t1 = 70` with the
spec's predicate still fails after shrinking. -/
theorem c1_shrink_preserves_failure_witness :
    testTrace (shrinkWithDataflow c1trace c1pred).2 c1pred = true :=
  (c1_shrink_preserves_failure c1trace c1pred (by decide)).1

/-- C8: `shrink_failing_example` never mutates the input trace: every cell
present in the heap before the call — in particular the cell holding the
live input trace — is unchanged afterwards; trials only allocate and mutate
fresh copies. -/
theorem c8_shrink_never_mutates_input {ε : Type} (h : Heap) (r : Nat)
    (pred : List (String × Val) → Except ε Bool) :
    (∀ i, i < heapLen h → (shrinkFailingExample h r pred).1[i]? = h[i]?) ∧
    (∀ tr : GenerationTrace, heapGet (shrinkFailingExample [tr] 0 pred).1 0
      = tr) := by
  constructor
  · exact (shrinkFailingExample_hext h r pred).2
  · intro tr
    have hx := (shrinkFailingExample_hext [tr] 0 pred).2 0 (by simp [heapLen])
    simp [heapGet, hx]

/-- C8 witness: on the concrete two-entry trace with an always-raising
predicate (every removal/substitution trial accepted), the original heap
cell still holds the untouched input trace. -/
theorem c8_shrink_never_mutates_input_witness :
    (shrinkFailingExample [c8trace] 0 c8pred).1[0]? = some c8trace ∧
    heapGet (shrinkFailingExample [c8trace] 0 c8pred).1 0 = c8trace := by
  constructor
  · have hx := (c8_shrink_never_mutates_input [c8trace] 0 c8pred).1 0
      (by simp [heapLen])
    simpa using hx
  · exact (c8_shrink_never_mutates_input [c8trace] 0 c8pred).2 c8trace

theorem foldl_pair_ext
    {f : List String × List String → String → List String × List String}
    (hf : ∀ vc d, ∃ new, (f vc d).1 = vc.1 ++ new ∧ (f vc d).2 = vc.2 ++ new) :
    ∀ (ds : List String) (vc : List String × List String),
      ∃ new, (ds.foldl f vc).1 = vc.1 ++ new ∧ (ds.foldl f vc).2 = vc.2 ++ new := by
  intro ds
  induction ds with
  | nil => exact fun vc => ⟨[], by simp⟩
  | cons d ds ih =>
      intro vc
      obtain ⟨n1, h11, h12⟩ := hf vc d
      obtain ⟨n2, h21, h22⟩ := ih (f vc d)
      exact ⟨n1 ++ n2, by rw [List.foldl_cons, h21, h11, List.append_assoc],
        by rw [List.foldl_cons, h22, h12, List.append_assoc]⟩

theorem dfsComponent_twin (tr : GenerationTrace) :
    ∀ fuel (nodeId : String) (vc : List String × List String),
      ∃ new, (tr.dfsComponent fuel nodeId vc).1 = vc.1 ++ new ∧
        (tr.dfsComponent fuel nodeId vc).2 = vc.2 ++ new := by
  intro fuel
  induction fuel with
  | zero =>
      intro nodeId vc
      exact ⟨[], by simp [GenerationTrace.dfsComponent]⟩
  | succ fuel ih =>
      intro nodeId vc
      obtain ⟨v, c⟩ := vc
      by_cases hmem : nodeId ∈ v
      · exact ⟨[], by simp [GenerationTrace.dfsComponent, hmem]⟩
      · cases hfind : tr.findEntry? nodeId with
        | none =>
            exact ⟨[nodeId], by simp [GenerationTrace.dfsComponent, hmem, hfind]⟩
        | some e =>
            obtain ⟨n1, h11, h12⟩ := foldl_pair_ext (fun vc d => ih d vc)
              e.dependencies (v ++ [nodeId], c ++ [nodeId])
            obtain ⟨n2, h21, h22⟩ := foldl_pair_ext (fun vc d => ih d vc)
              (dictGetD tr.getReverseDependencies nodeId [])
              (e.dependencies.foldl (fun vc d => tr.dfsComponent fuel d vc)
                (v ++ [nodeId], c ++ [nodeId]))
            refine ⟨[nodeId] ++ (n1 ++ n2), ?_, ?_⟩
            · simp only [GenerationTrace.dfsComponent, hmem, if_false, hfind]
              rw [h21, h11]
              simp [List.append_assoc]
            · simp only [GenerationTrace.dfsComponent, hmem, if_false, hfind]
              rw [h22, h12]
              simp [List.append_assoc]

theorem dfsComponent_mem_mono (tr : GenerationTrace) (fuel : Nat)
    (nodeId : String) (vc : List String × List String) {x : String}
    (hx : x ∈ vc.1) : x ∈ (tr.dfsComponent fuel nodeId vc).1 := by
  obtain ⟨t, ht, _⟩ := dfsComponent_twin tr fuel nodeId vc
  rw [ht]
  exact List.mem_append_left _ hx

theorem foldDfs_mem_mono (tr : GenerationTrace) (fuel : Nat)
    (ds : List String) (vc : List String × List String) {x : String}
    (hx : x ∈ vc.1) :
    x ∈ (ds.foldl (fun vc d => tr.dfsComponent fuel d vc) vc).1 := by
  obtain ⟨t, ht, _⟩ := foldl_pair_ext (fun vc d => dfsComponent_twin tr fuel d vc) ds vc
  rw [ht]
  exact List.mem_append_left _ hx

theorem foldl_pres {α β : Type} (f : β → α → β) (P : β → Prop)
    (hf : ∀ b a, P b → P (f b a)) :
    ∀ (l : List α) (b : β), P b → P (l.foldl f b) := by
  intro l
  induction l with
  | nil => exact fun b hb => hb
  | cons a l ih => exact fun b hb => ih (f b a) (hf b a hb)

theorem dfsComponent_nodup (tr : GenerationTrace) :
    ∀ fuel (nodeId : String) (vc : List String × List String),
      vc.1.Nodup → (tr.dfsComponent fuel nodeId vc).1.Nodup := by
  intro fuel
  induction fuel with
  | zero =>
      intro nodeId vc h
      simpa [GenerationTrace.dfsComponent] using h
  | succ fuel ih =>
      intro nodeId vc h
      obtain ⟨v, c⟩ := vc
      by_cases hmem : nodeId ∈ v
      · simpa [GenerationTrace.dfsComponent, hmem] using h
      · have hvn : (v ++ [nodeId]).Nodup := by
          simp only [List.nodup_append, List.nodup_cons, List.nodup_nil]
          exact ⟨h, by simp, by simpa using hmem⟩
        cases hfind : tr.findEntry? nodeId with
        | none => simpa [GenerationTrace.dfsComponent, hmem, hfind] using hvn
        | some e =>
            simp only [GenerationTrace.dfsComponent, hmem, if_false, hfind]
            apply foldl_pres _ (fun vc => vc.1.Nodup) (fun vc d hp => ih d vc hp)
            apply foldl_pres _ (fun vc => vc.1.Nodup) (fun vc d hp => ih d vc hp)
            simpa using hvn

theorem dfsComponent_mem_self (tr : GenerationTrace) (fuel : Nat)
    (nodeId : String) (vc : List String × List String) (hpos : 0 < fuel) :
    nodeId ∈ (tr.dfsComponent fuel nodeId vc).1 := by
  obtain ⟨fuel, rfl⟩ : ∃ f, fuel = f + 1 := ⟨fuel - 1, by omega⟩
  obtain ⟨v, c⟩ := vc
  by_cases hmem : nodeId ∈ v
  · simp [GenerationTrace.dfsComponent, hmem]
  · cases hfind : tr.findEntry? nodeId with
    | none => simp [GenerationTrace.dfsComponent, hmem, hfind]
    | some e =>
        simp only [GenerationTrace.dfsComponent, hmem, if_false, hfind]
        apply foldDfs_mem_mono
        apply foldDfs_mem_mono
        simp

theorem foldDfs_mem_processed (tr : GenerationTrace) (fuel : Nat)
    (hpos : 0 < fuel) :
    ∀ (ds : List String) (vc : List String × List String), ∀ d ∈ ds,
      d ∈ (ds.foldl (fun vc dd => tr.dfsComponent fuel dd vc) vc).1 := by
  intro ds
  induction ds with
  | nil => intro vc d hd; simp at hd
  | cons d0 ds ih =>
      intro vc d hd
      rw [List.foldl_cons]
      rcases List.mem_cons.mp hd with rfl | hd2
      · exact foldDfs_mem_mono tr fuel ds _
          (dfsComponent_mem_self tr fuel d vc hpos)
      · exact ih _ d hd2

theorem dfsComponent_sound (tr : GenerationTrace)
    (hdeps : ∀ e ∈ tr.entries, ∀ d ∈ e.dependencies,
      d ∈ tr.entries.map (fun e => e.id)) :
    ∀ fuel (nodeId : String) (vc : List String × List String),
      nodeId ∈ tr.entries.map (fun e => e.id) →
      ∀ x ∈ (tr.dfsComponent fuel nodeId vc).1,
        x ∈ vc.1 ∨ (x ∈ tr.entries.map (fun e => e.id) ∧ ConnectedIds tr nodeId x) := by
  intro fuel
  induction fuel with
  | zero =>
      intro nodeId vc hn x hx
      left
      simpa [GenerationTrace.dfsComponent] using hx
  | succ fuel ih =>
      have hfold : ∀ (n0 : String) (ds : List String) (vc : List String × List String),
          (∀ d ∈ ds, d ∈ tr.entries.map (fun e => e.id) ∧ ConnectedIds tr n0 d) →
          ∀ x ∈ (ds.foldl (fun vc dd => tr.dfsComponent fuel dd vc) vc).1,
            x ∈ vc.1 ∨ (x ∈ tr.entries.map (fun e => e.id) ∧ ConnectedIds tr n0 x) := by
        intro n0 ds
        induction ds with
        | nil => intro vc _ x hx; left; simpa using hx
        | cons d0 ds ihds =>
            intro vc hds x hx
            rw [List.foldl_cons] at hx
            rcases ihds _ (fun d hd => hds d (List.mem_cons_of_mem _ hd)) x hx with
              h | h
            · rcases ih d0 vc (hds d0 (List.mem_cons_self _ _)).1 x h with h2 | h2
              · left; exact h2
              · right
                exact ⟨h2.1, ((hds d0 (List.mem_cons_self _ _)).2).trans h2.2⟩
            · right; exact h
      intro nodeId vc hn x hx
      obtain ⟨v, c⟩ := vc
      by_cases hmem : nodeId ∈ v
      · left
        simpa [GenerationTrace.dfsComponent, hmem] using hx
      · cases hfind : tr.findEntry? nodeId with
        | none =>
            have hx2 : x ∈ v ∨ x = nodeId := by
              simpa [GenerationTrace.dfsComponent, hmem, hfind] using hx
            rcases hx2 with h | hxeq
            · left; exact h
            · right
              exact ⟨hxeq ▸ hn, hxeq ▸ Relation.ReflTransGen.refl⟩
        | some e0 =>
            obtain ⟨he0, hid0⟩ := findEntry?_some_spec tr hfind
            have hx2 : x ∈ ((dictGetD tr.getReverseDependencies nodeId []).foldl
                (fun vc r => tr.dfsComponent fuel r vc)
                (e0.dependencies.foldl (fun vc d => tr.dfsComponent fuel d vc)
                  (v ++ [nodeId], c ++ [nodeId]))).1 := by
              simpa [GenerationTrace.dfsComponent, hmem, hfind] using hx
            have hrev : ∀ r ∈ dictGetD tr.getReverseDependencies nodeId [],
                r ∈ tr.entries.map (fun e => e.id) ∧ ConnectedIds tr nodeId r := by
              intro r hr
              obtain ⟨e1, he1, hid1, hd1⟩ := (revdeps_mem tr nodeId r).mp hr
              exact ⟨hid1 ▸ List.mem_map_of_mem _ he1,
                Relation.ReflTransGen.single (Or.inr ⟨e1, he1, hid1, hd1⟩)⟩
            have hdep : ∀ d ∈ e0.dependencies,
                d ∈ tr.entries.map (fun e => e.id) ∧ ConnectedIds tr nodeId d := by
              intro d hd
              exact ⟨hdeps e0 he0 d hd,
                Relation.ReflTransGen.single (Or.inl ⟨e0, he0, hid0, hd⟩)⟩
            rcases hfold nodeId _ _ hrev x hx2 with h | h
            · rcases hfold nodeId _ _ hdep x h with h2 | h2
              · rcases List.mem_append.mp h2 with h3 | h3
                · left; exact h3
                · right
                  have hxeq : x = nodeId := by simpa using h3
                  exact ⟨hxeq ▸ hn, hxeq ▸ Relation.ReflTransGen.refl⟩
              · right; exact h2
            · right; exact h

theorem unvisitedCount_lt_fuelBound_any (tr : GenerationTrace)
    (acc : List String) : unvisitedCount tr acc < tr.fuelBound := by
  have h := List.countP_le_length
    (p := fun x => decide (x ∉ acc)) (l := tr.allNodeIds)
  simp only [unvisitedCount, GenerationTrace.fuelBound]
  omega

theorem dfsComponent_closed (tr : GenerationTrace) (hwf : WellFormed tr) :
    ∀ fuel (vc : List String × List String) (nodeId : String),
      unvisitedCount tr vc.1 < fuel →
      nodeId ∈ tr.entries.map (fun e => e.id) →
      ∀ x ∈ (tr.dfsComponent fuel nodeId vc).1, x ∉ vc.1 →
      ∀ y, UndirectedAdj tr x y → y ∈ (tr.dfsComponent fuel nodeId vc).1 := by
  intro fuel
  induction fuel with
  | zero => intro vc nodeId hc; omega
  | succ fuel ih =>
      have hfold : ∀ (ds : List String) (vc : List String × List String),
          (∀ d ∈ ds, d ∈ tr.entries.map (fun e => e.id)) →
          unvisitedCount tr vc.1 < fuel →
          ∀ x ∈ (ds.foldl (fun vc dd => tr.dfsComponent fuel dd vc) vc).1,
            x ∉ vc.1 → ∀ y, UndirectedAdj tr x y →
            y ∈ (ds.foldl (fun vc dd => tr.dfsComponent fuel dd vc) vc).1 := by
        intro ds
        induction ds with
        | nil =>
            intro vc _ _ x hx hxvc
            rw [List.foldl_nil] at hx
            exact absurd hx hxvc
        | cons d0 ds ihds =>
            intro vc hds hc x hx hxvc y hadj
            rw [List.foldl_cons] at hx ⊢
            by_cases hxmid : x ∈ (tr.dfsComponent fuel d0 vc).1
            · have hy := ih vc d0 hc (hds d0 (List.mem_cons_self _ _)) x hxmid
                hxvc y hadj
              exact foldDfs_mem_mono tr fuel ds _ hy
            · have hcmid : unvisitedCount tr (tr.dfsComponent fuel d0 vc).1 < fuel := by
                obtain ⟨t, ht, _⟩ := dfsComponent_twin tr fuel d0 vc
                have hsub : ∀ z, z ∈ vc.1 → z ∈ (tr.dfsComponent fuel d0 vc).1 := by
                  rw [ht]
                  exact fun z hz => List.mem_append_left _ hz
                exact lt_of_le_of_lt (unvisitedCount_le tr hsub) hc
              exact ihds _ (fun d hd => hds d (List.mem_cons_of_mem _ hd))
                hcmid x hx hxmid y hadj
      intro vc nodeId hc hn x hx hxvc y hadj
      obtain ⟨v, c⟩ := vc
      by_cases hmem : nodeId ∈ v
      · rw [show tr.dfsComponent (fuel + 1) nodeId (v, c) = (v, c) from by
          simp [GenerationTrace.dfsComponent, hmem]] at hx
        exact absurd hx hxvc
      · cases hfind : tr.findEntry? nodeId with
        | none =>
            exfalso
            obtain ⟨e1, he1, hid1⟩ := List.mem_map.mp hn
            have := List.find?_eq_none.mp hfind e1 he1
            simp [hid1] at this
        | some e0 =>
            obtain ⟨he0, hid0⟩ := findEntry?_some_spec tr hfind
            have hn0 : nodeId ∈ tr.allNodeIds := by
              rw [← hid0]
              exact id_mem_allNodeIds tr he0
            have hc1 : unvisitedCount tr (v ++ [nodeId]) < fuel := by
              have h1 := unvisitedCount_lt tr hn0 (by simpa using hmem)
              simp only at hc
              omega
            have hposf : 0 < fuel := by
              have h1 := unvisitedCount_lt tr hn0 (by simpa using hmem)
              simp only at hc
              omega
            have hres : tr.dfsComponent (fuel + 1) nodeId (v, c)
                = (dictGetD tr.getReverseDependencies nodeId []).foldl
                    (fun vc r => tr.dfsComponent fuel r vc)
                    (e0.dependencies.foldl (fun vc d => tr.dfsComponent fuel d vc)
                      (v ++ [nodeId], c ++ [nodeId])) := by
              simp [GenerationTrace.dfsComponent, hmem, hfind]
            have hdepids : ∀ d ∈ e0.dependencies,
                d ∈ tr.entries.map (fun e => e.id) := fun d hd => hwf.2 e0 he0 d hd
            have hrevids : ∀ r ∈ dictGetD tr.getReverseDependencies nodeId [],
                r ∈ tr.entries.map (fun e => e.id) := by
              intro r hr
              obtain ⟨e1, he1, hid1, _⟩ := (revdeps_mem tr nodeId r).mp hr
              exact hid1 ▸ List.mem_map_of_mem _ he1
            have hcB : unvisitedCount tr
                (e0.dependencies.foldl (fun vc d => tr.dfsComponent fuel d vc)
                  (v ++ [nodeId], c ++ [nodeId])).1 < fuel := by
              obtain ⟨t, ht, _⟩ := foldl_pair_ext
                (fun vc d => dfsComponent_twin tr fuel d vc) e0.dependencies
                (v ++ [nodeId], c ++ [nodeId])
              have hsub : ∀ z, z ∈ v ++ [nodeId] →
                  z ∈ (e0.dependencies.foldl (fun vc d => tr.dfsComponent fuel d vc)
                    (v ++ [nodeId], c ++ [nodeId])).1 := by
                rw [ht]
                exact fun z hz => List.mem_append_left _ hz
              exact lt_of_le_of_lt (unvisitedCount_le tr hsub) hc1
            rw [hres] at hx ⊢
            by_cases hxn : x = nodeId
            · subst hxn
              rcases hadj with hfwd | hbwd
              · obtain ⟨e1, he1, hid1, hyd⟩ := hfwd
                have he1e0 : e1 = e0 := by
                  have hfind1 : tr.findEntry? e1.id = some e1 :=
                    findEntry?_of_wf tr hwf.1 he1
                  rw [hid1, hfind] at hfind1
                  exact (Option.some.inj hfind1).symm
                subst he1e0
                exact foldDfs_mem_mono tr fuel _ _
                  (foldDfs_mem_processed tr fuel hposf e1.dependencies _ y hyd)
              · have hyrev : y ∈ dictGetD tr.getReverseDependencies x [] :=
                  (revdeps_mem tr x y).mpr hbwd
                exact foldDfs_mem_processed tr fuel hposf _ _ y hyrev
            · have hxA : x ∉ v ++ [nodeId] := by
                simp only [List.mem_append, List.mem_singleton]
                rintro (h | h)
                · exact hxvc h
                · exact hxn h
              by_cases hxB : x ∈ (e0.dependencies.foldl
                  (fun vc d => tr.dfsComponent fuel d vc)
                  (v ++ [nodeId], c ++ [nodeId])).1
              · have hy := hfold e0.dependencies _ hdepids hc1 x hxB hxA y hadj
                exact foldDfs_mem_mono tr fuel _ _ hy
              · exact hfold _ _ hrevids hcB x hx hxB y hadj

theorem getConnectedComponents_eq_fold (tr : GenerationTrace) :
    tr.getConnectedComponents = (tr.entries.foldl (ccStep tr) ([], [])).2 := rfl

theorem undirectedAdj_symm (tr : GenerationTrace) {a b : String}
    (h : UndirectedAdj tr a b) : UndirectedAdj tr b a := h.symm

theorem ccStep_inv (tr : GenerationTrace) (hwf : WellFormed tr)
    (acc : List String × List (List String)) {e : TraceEntry}
    (he : e ∈ tr.entries) (hinv : CCInv tr acc) :
    CCInv tr (ccStep tr acc e) ∧
    (∀ x ∈ acc.1, x ∈ (ccStep tr acc e).1) ∧
    e.id ∈ (ccStep tr acc e).1 ∧
    (∀ cc ∈ acc.2, cc ∈ (ccStep tr acc e).2) := by
  obtain ⟨hflat, hnd, hids, hclosed, hcclosed, hcconn⟩ := hinv
  by_cases hmem : e.id ∈ acc.1
  · rw [show ccStep tr acc e = acc from by simp [ccStep, hmem]]
    exact ⟨⟨hflat, hnd, hids, hclosed, hcclosed, hcconn⟩,
      fun x hx => hx, hmem, fun cc hcc => hcc⟩
  · have hres : ccStep tr acc e
        = ((tr.dfsComponent tr.fuelBound e.id (acc.1, [])).1,
           acc.2 ++ [(tr.dfsComponent tr.fuelBound e.id (acc.1, [])).2]) := by
      simp [ccStep, hmem]
    have hne : e.id ∈ tr.entries.map (fun e => e.id) := List.mem_map_of_mem _ he
    obtain ⟨new, htv, htc⟩ := dfsComponent_twin tr tr.fuelBound e.id (acc.1, [])
    have htc2 : (tr.dfsComponent tr.fuelBound e.id (acc.1, [])).2 = new := by
      simpa using htc
    have hvnd : (tr.dfsComponent tr.fuelBound e.id (acc.1, [])).1.Nodup :=
      dfsComponent_nodup tr tr.fuelBound e.id (acc.1, []) hnd
    have hdisj : ∀ x ∈ new, x ∉ acc.1 := by
      rw [htv] at hvnd
      intro x hx hxacc
      exact (List.disjoint_of_nodup_append hvnd) hxacc hx
    have hcount : unvisitedCount tr (acc.1, ([] : List String)).1 < tr.fuelBound :=
      unvisitedCount_lt_fuelBound_any tr acc.1
    have hsound := dfsComponent_sound tr hwf.2 tr.fuelBound e.id (acc.1, []) hne
    have hclosed2 := dfsComponent_closed tr hwf tr.fuelBound (acc.1, []) e.id
      hcount hne
    have hnewconn : ∀ x ∈ new, ConnectedIds tr e.id x ∧
        x ∈ tr.entries.map (fun e => e.id) := by
      intro x hx
      have hxv : x ∈ (tr.dfsComponent tr.fuelBound e.id (acc.1, [])).1 := by
        rw [htv]; exact List.mem_append_right _ hx
      rcases hsound x hxv with h | h
      · exact absurd h (hdisj x hx)
      · exact ⟨h.2, h.1⟩
    have hnewclosed : ∀ x ∈ new, ∀ y, UndirectedAdj tr x y →
        y ∈ (tr.dfsComponent tr.fuelBound e.id (acc.1, [])).1 := by
      intro x hx y hadj
      have hxv : x ∈ (tr.dfsComponent tr.fuelBound e.id (acc.1, [])).1 := by
        rw [htv]; exact List.mem_append_right _ hx
      exact hclosed2 x hxv (hdisj x hx) y hadj
    rw [hres]
    refine ⟨⟨?_, hvnd, ?_, ?_, ?_, ?_⟩, ?_, ?_, ?_⟩
    · rw [htv, htc2, hflat]
      simp
    · intro x hx
      rw [htv] at hx
      rcases List.mem_append.mp hx with h | h
      · exact hids x h
      · exact (hnewconn x h).2
    · intro x hx y hadj
      rw [htv] at hx ⊢
      rcases List.mem_append.mp hx with h | h
      · exact List.mem_append_left _ (hclosed x h y hadj)
      · have := hnewclosed x h y hadj
        rwa [htv] at this
    · intro cc hcc x hx y hadj
      rcases List.mem_append.mp hcc with h | h
      · exact hcclosed cc h x hx y hadj
      · have hccnew : cc = new := by
          rw [htc2] at h
          simpa using h
        subst hccnew
        have hy := hnewclosed x hx y hadj
        rw [htv] at hy
        rcases List.mem_append.mp hy with h2 | h2
        · exfalso
          have hxacc := hclosed y h2 x (undirectedAdj_symm tr hadj)
          exact hdisj x hx hxacc
        · exact h2
    · intro cc hcc x hx y hy
      rcases List.mem_append.mp hcc with h | h
      · exact hcconn cc h x hx y hy
      · have hccnew : cc = new := by
          rw [htc2] at h
          simpa using h
        subst hccnew
        have hsymm : Symmetric (UndirectedAdj tr) := fun a b h => h.symm
        exact ((Relation.ReflTransGen.symmetric hsymm)
          (hnewconn x hx).1).trans (hnewconn y hy).1
    · intro x hx
      rw [htv]
      exact List.mem_append_left _ hx
    · exact dfsComponent_mem_self tr tr.fuelBound e.id (acc.1, [])
        (by simp [GenerationTrace.fuelBound])
    · intro cc hcc
      exact List.mem_append_left _ hcc

theorem ccFold_inv (tr : GenerationTrace) (hwf : WellFormed tr) :
    ∀ (es : List TraceEntry), (∀ e ∈ es, e ∈ tr.entries) →
    ∀ (acc : List String × List (List String)), CCInv tr acc →
      CCInv tr (es.foldl (ccStep tr) acc) ∧
      (∀ x ∈ acc.1, x ∈ (es.foldl (ccStep tr) acc).1) ∧
      (∀ e ∈ es, e.id ∈ (es.foldl (ccStep tr) acc).1) ∧
      (∀ cc ∈ acc.2, cc ∈ (es.foldl (ccStep tr) acc).2) := by
  intro es
  induction es with
  | nil =>
      intro _ acc hinv
      exact ⟨hinv, fun x hx => hx, fun e he => absurd he (by simp),
        fun cc hcc => hcc⟩
  | cons e0 es ih =>
      intro hes acc hinv
      have hstep := ccStep_inv tr hwf acc (hes e0 (List.mem_cons_self _ _)) hinv
      have hrest := ih (fun e he => hes e (List.mem_cons_of_mem _ he))
        (ccStep tr acc e0) hstep.1
      rw [List.foldl_cons]
      refine ⟨hrest.1, ?_, ?_, ?_⟩
      · exact fun x hx => hrest.2.1 x (hstep.2.1 x hx)
      · intro e he
        rcases List.mem_cons.mp he with rfl | he2
        · exact hrest.2.1 e.id hstep.2.2.1
        · exact hrest.2.2.1 e he2
      · exact fun cc hcc => hrest.2.2.2 cc (hstep.2.2.2 cc hcc)

/-- C7: for every trace satisfying the data-model invariants (distinct
entry ids, every dependency id naming an entry), `get_connected_components`
partitions the set of entry ids: membership in the concatenation of the
returned components is exactly membership in the entry-id list, the
concatenation has no duplicates (so every id lies in exactly one component
and distinct components are disjoint), and two ids share a component
exactly when both are entry ids connected under the undirected view of the
dependency graph. -/
theorem c7_connected_components_partition (tr : GenerationTrace)
    (hwf : WellFormed tr) :
    (∀ x, x ∈ tr.getConnectedComponents.flatten ↔
      x ∈ tr.entries.map (fun e => e.id)) ∧
    tr.getConnectedComponents.flatten.Nodup ∧
    (∀ x y, (∃ cc ∈ tr.getConnectedComponents, x ∈ cc ∧ y ∈ cc) ↔
      (x ∈ tr.entries.map (fun e => e.id) ∧
        y ∈ tr.entries.map (fun e => e.id) ∧ ConnectedIds tr x y)) := by
  have hbase : CCInv tr ([], []) := by
    refine ⟨by simp, by simp, ?_, ?_, ?_, ?_⟩ <;> simp
  obtain ⟨hinv, _, hall, _⟩ :=
    ccFold_inv tr hwf tr.entries (fun e he => he) ([], []) hbase
  obtain ⟨hflat, hnd, hids, _, hcclosed, hcconn⟩ := hinv
  have hcomps : tr.getConnectedComponents
      = (tr.entries.foldl (ccStep tr) ([], [])).2 :=
    getConnectedComponents_eq_fold tr
  have hflat2 : tr.getConnectedComponents.flatten
      = (tr.entries.foldl (ccStep tr) ([], [])).1 := by
    rw [hcomps, ← hflat]
  refine ⟨?_, ?_, ?_⟩
  · intro x
    rw [hflat2]
    constructor
    · exact fun hx => hids x hx
    · intro hx
      obtain ⟨e, he, hid⟩ := List.mem_map.mp hx
      exact hid ▸ hall e he
  · rw [hflat2]
    exact hnd
  · intro x y
    constructor
    · rintro ⟨cc, hcc, hx, hy⟩
      rw [hcomps] at hcc
      have hxf : x ∈ (tr.entries.foldl (ccStep tr) ([], [])).1 := by
        rw [hflat]
        exact List.mem_flatten.mpr ⟨cc, hcc, hx⟩
      have hyf : y ∈ (tr.entries.foldl (ccStep tr) ([], [])).1 := by
        rw [hflat]
        exact List.mem_flatten.mpr ⟨cc, hcc, hy⟩
      exact ⟨hids x hxf, hids y hyf, hcconn cc hcc x hx y hy⟩
    · rintro ⟨hx, hy, hconn⟩
      obtain ⟨e, he, hid⟩ := List.mem_map.mp hx
      have hxf : x ∈ (tr.entries.foldl (ccStep tr) ([], [])).1 := hid ▸ hall e he
      obtain ⟨cc, hcc, hxcc⟩ := List.mem_flatten.mp (by rw [← hflat]; exact hxf)
      refine ⟨cc, by rwa [hcomps], hxcc, ?_⟩
      clear hx hid hy
      induction hconn with
      | refl => exact hxcc
      | tail hsteps hadj ihc => exact hcclosed cc hcc _ ihc _ hadj

theorem c7_connected_components_partition_witness :
    WellFormed c7trace ∧
    ("t2" ∈ c7trace.getConnectedComponents.flatten ∧
      (∃ cc ∈ c7trace.getConnectedComponents, "t1" ∈ cc ∧ "t2" ∈ cc)) := by
  refine ⟨by decide, ?_⟩
  have h := c7_connected_components_partition c7trace (by decide)
  refine ⟨(h.1 "t2").mpr (by decide), ?_⟩
  refine (h.2.2 "t1" "t2").mpr ⟨by decide, by decide, ?_⟩
  have adj1 : UndirectedAdj c7trace "t1" "t0" :=
    Or.inl ⟨mkEntry "t1" ["t0"] (.int 1),
      List.Mem.tail _ (List.Mem.head _), rfl, List.Mem.head _⟩
  have adj2 : UndirectedAdj c7trace "t0" "t2" :=
    Or.inr ⟨mkEntry "t2" ["t0"] (.int 2),
      List.Mem.tail _ (List.Mem.tail _ (List.Mem.head _)), rfl, List.Mem.head _⟩
  exact Relation.ReflTransGen.head adj1 (Relation.ReflTransGen.single adj2)
